import Mathlib

/-!
Verification model of the `organization-automation` repository
(`invite_to_org.py` and `manage_groups.py`): a shallow embedding of the
roster loaders, the slugification function, and the two reconciliation
loops, together with proofs about the specified properties.

Strings from Python are modelled as Lean `String`s over their character
lists; Python's ASCII-level string primitives (`str.strip`, `str.lstrip`,
`str.lower`, the two `re.sub` calls) are modelled character by character.
The remote platform (GitHub) is an external collaborator: its data state
is a concrete record, queries read it and mutations update it; the
success/failure signal of each mutating call is supplied by an explicit
oracle so that both all-success runs and failing calls can be analysed.
-/

namespace OrgAuto

/-! ## Python character-level helpers -/

/-- Python `\s` over ASCII: the whitespace class used by `str.strip()`
and by the `\s*` in the trailing-comma regex. -/
def isPySpace (c : Char) : Bool :=
  c == ' ' || c == '\t' || c == '\n' || c == '\r' || c == '\x0b' || c == '\x0c'

/-- Left part of Python `str.strip()`. -/
def pyStripL (l : List Char) : List Char := l.dropWhile isPySpace

/-- Right part of Python `str.strip()`. -/
def pyStripR (l : List Char) : List Char := (l.reverse.dropWhile isPySpace).reverse

/-- Python `str.strip()` (no arguments): drop whitespace at both ends. -/
def pyStrip (l : List Char) : List Char := pyStripR (pyStripL l)

/-- `str.strip()` on a `String`. -/
def pyStripStr (s : String) : String := ⟨pyStrip s.data⟩

/-- Python `str.lstrip("@")`: drop every leading `'@'` character. -/
def stripSigils (s : String) : String := ⟨s.data.dropWhile (fun c => c == '@')⟩

/-! ## The trailing-comma textual pre-pass

`re.sub(r',\s*([}\]])', r'\1', raw)`: a comma followed by optional
whitespace and a closing brace/bracket is replaced by just that closing
character.  Because `}`/`]` are not whitespace, the regex (with its greedy
`\s*`) matches at a comma exactly when dropping all whitespace after the
comma lands directly on `}` or `]`, and `re.sub` scans left to right with
non-overlapping matches; a position inside a whitespace run can never
start a match.  `stripGo` implements that scan with an explicit pending
buffer holding the candidate comma and the whitespace read after it
(stored reversed). -/

def stripGo : List Char → List Char → List Char
  | pend, [] => pend.reverse
  | pend, c :: rest =>
    if pend.isEmpty then
      if c == ',' then stripGo [c] rest
      else c :: stripGo [] rest
    else
      if c == '}' || c == ']' then c :: stripGo [] rest
      else if isPySpace c then stripGo (c :: pend) rest
      else if c == ',' then pend.reverse ++ stripGo [c] rest
      else pend.reverse ++ (c :: stripGo [] rest)

/-- The textual pre-pass from `load_students` (both scripts, identical
regex): tolerate trailing commas before a closing bracket/brace. -/
def stripTrailingCommas (s : String) : String := ⟨stripGo [] s.data⟩

/-! ## JSON values and a strict parser (model of `json.loads`)

Number literals are modelled as integers: fractional/exponent forms
(absent from roster files, and irrelevant to every loader branch the
claims touch) are outside the modelled fragment.  `\uXXXX` escapes are
mapped through `Char.ofNat`; lone surrogates fall to the default
character. -/

inductive Json where
  | null
  | bool (b : Bool)
  | num (n : Int)
  | str (s : String)
  | arr (elems : List Json)
  | obj (pairs : List (String × Json))

/-- JSON insignificant whitespace (what `json.loads` skips). -/
def isJsonWs (c : Char) : Bool := c == ' ' || c == '\t' || c == '\n' || c == '\r'

def skipWs (l : List Char) : List Char := l.dropWhile isJsonWs

def hexVal (c : Char) : Option Nat :=
  let n := c.toNat
  if 48 ≤ n && n ≤ 57 then some (n - 48)
  else if 97 ≤ n && n ≤ 102 then some (n - 87)
  else if 65 ≤ n && n ≤ 70 then some (n - 55)
  else none

def escChar (e : Char) : Option Char :=
  if e == '"' then some '"'
  else if e == '\\' then some '\\'
  else if e == '/' then some '/'
  else if e == 'b' then some '\x08'
  else if e == 'f' then some '\x0c'
  else if e == 'n' then some '\n'
  else if e == 'r' then some '\r'
  else if e == 't' then some '\t'
  else none

/-- Integer literal: optional minus, digits, no redundant leading zero,
not followed by a fractional/exponent part. -/
def parseNum (l : List Char) : Option (Json × List Char) :=
  let p := match l with
    | '-' :: r => (true, r)
    | _ => (false, l)
  let ds := p.2.takeWhile Char.isDigit
  let r2 := p.2.dropWhile Char.isDigit
  if ds.isEmpty then none
  else if ds.length > 1 && ds.head? == some '0' then none
  else match r2 with
    | '.' :: _ => none
    | 'e' :: _ => none
    | 'E' :: _ => none
    | _ =>
      let n : Nat := ds.foldl (fun acc c => acc * 10 + (c.toNat - '0'.toNat)) 0
      some (.num (if p.1 then -(n : Int) else (n : Int)), r2)

mutual

def parseVal : Nat → List Char → Option (Json × List Char)
  | 0, _ => none
  | f + 1, l =>
    match skipWs l with
    | [] => none
    | c :: rest =>
      if c == '{' then
        match skipWs rest with
        | '}' :: r2 => some (.obj [], r2)
        | r2 => (parseMembers f r2).map (fun pr => (.obj pr.1, pr.2))
      else if c == '[' then
        match skipWs rest with
        | ']' :: r2 => some (.arr [], r2)
        | r2 => (parseElems f r2).map (fun pr => (.arr pr.1, pr.2))
      else if c == '"' then
        (parseStr f rest).map (fun pr => (.str ⟨pr.1⟩, pr.2))
      else if c == 't' then
        match rest with
        | 'r' :: 'u' :: 'e' :: r2 => some (.bool true, r2)
        | _ => none
      else if c == 'f' then
        match rest with
        | 'a' :: 'l' :: 's' :: 'e' :: r2 => some (.bool false, r2)
        | _ => none
      else if c == 'n' then
        match rest with
        | 'u' :: 'l' :: 'l' :: r2 => some (.null, r2)
        | _ => none
      else parseNum (c :: rest)

def parseMembers : Nat → List Char → Option (List (String × Json) × List Char)
  | 0, _ => none
  | f + 1, l =>
    match skipWs l with
    | '"' :: r1 =>
      match parseStr f r1 with
      | none => none
      | some (k, r2) =>
        match skipWs r2 with
        | ':' :: r3 =>
          match parseVal f r3 with
          | none => none
          | some (v, r4) =>
            match skipWs r4 with
            | ',' :: r5 => (parseMembers f r5).map (fun pr => ((⟨k⟩, v) :: pr.1, pr.2))
            | '}' :: r5 => some ([(⟨k⟩, v)], r5)
            | _ => none
        | _ => none
    | _ => none

def parseElems : Nat → List Char → Option (List Json × List Char)
  | 0, _ => none
  | f + 1, l =>
    match parseVal f l with
    | none => none
    | some (v, r1) =>
      match skipWs r1 with
      | ',' :: r2 => (parseElems f r2).map (fun pr => (v :: pr.1, pr.2))
      | ']' :: r2 => some ([v], r2)
      | _ => none

def parseStr : Nat → List Char → Option (List Char × List Char)
  | 0, _ => none
  | f + 1, l =>
    match l with
    | [] => none
    | c :: rest =>
      if c == '"' then some ([], rest)
      else if c == '\\' then
        match rest with
        | [] => none
        | e :: r2 =>
          if e == 'u' then
            match r2 with
            | h1 :: h2 :: h3 :: h4 :: r3 =>
              match hexVal h1, hexVal h2, hexVal h3, hexVal h4 with
              | some a, some b, some c2, some d =>
                (parseStr f r3).map
                  (fun pr => (Char.ofNat (((a * 16 + b) * 16 + c2) * 16 + d) :: pr.1, pr.2))
              | _, _, _, _ => none
            | _ => none
          else
            match escChar e with
            | none => none
            | some ec => (parseStr f r2).map (fun pr => (ec :: pr.1, pr.2))
      else if c.toNat < 32 then none
      else (parseStr f rest).map (fun pr => (c :: pr.1, pr.2))

end

/-- Strict `json.loads`: parse one value, allow only trailing whitespace. -/
def parseJson (s : String) : Option Json :=
  match parseVal (s.data.length + 1) s.data with
  | none => none
  | some (v, rest) => if (skipWs rest).isEmpty then some v else none

/-! ## Loader data model -/

inductive LoadErr
  | parseErr
  | emptyRoster
  | crash
deriving DecidableEq

/-- A normalized invitation-roster record (`invite_to_org.load_students`). -/
structure IRow where
  name : String
  username : String
deriving DecidableEq

/-- A normalized group-roster record (`manage_groups.load_students`). -/
structure GRow where
  name : String
  username : String
  group : String
deriving DecidableEq

/-- Python truthiness of a JSON value. -/
def Json.truthy : Json → Bool
  | .null => false
  | .bool b => b
  | .num n => n != 0
  | .str s => !s.isEmpty
  | .arr xs => !xs.isEmpty
  | .obj ps => !ps.isEmpty

/-- Python dict field access on parsed JSON object pairs: building the
dict collapses duplicate keys with the last occurrence winning, so
`it.get(k)` reads the last pair with key `k`. -/
def getKey (ps : List (String × Json)) (k : String) : Option Json :=
  (ps.reverse.find? (fun p => p.1 == k)).map (fun p => p.2)

/-- `(it.get(k) or "")` followed by a string method: a truthy non-string
value makes the Python loader crash with `AttributeError` (modelled as
`LoadErr.crash`), a falsy value collapses to `""`. -/
def strOrEmpty : Option Json → Except LoadErr String
  | none => .ok ""
  | some (.str s) => .ok s
  | some v => if v.truthy then .error .crash else .ok ""

/-- Keys of a Python dict in iteration order: first occurrence of each
key, duplicates collapsed. -/
def dedupKeys : List String → List String → List String
  | _, [] => []
  | seen, k :: ks => if seen.contains k then dedupKeys seen ks else k :: dedupKeys (k :: seen) ks

/-- `for it in data`: lists yield their elements, dicts their keys,
strings their characters; other values raise (`crash`). -/
def iterItems : Json → Except LoadErr (List Json)
  | .arr xs => .ok xs
  | .obj ps => .ok ((dedupKeys [] (ps.map (fun p => p.1))).map Json.str)
  | .str s => .ok (s.data.map (fun c => Json.str ⟨[c]⟩))
  | _ => .error .crash

/-- One iteration of the `invite_to_org.load_students` loop: a dict with
a truthy `username` field yields a row whose name is stripped and whose
username is stripped and has all leading `'@'` removed; everything else
is silently skipped. -/
def iRowOf (it : Json) : Except LoadErr (Option IRow) :=
  match it with
  | .obj ps =>
    match getKey ps "username" with
    | some u =>
      if u.truthy then
        match u with
        | .str su =>
          match strOrEmpty (getKey ps "name") with
          | .error e => .error e
          | .ok n => .ok (some ⟨pyStripStr n, stripSigils (pyStripStr su)⟩)
        | _ => .error .crash
      else .ok none
    | none => .ok none
  | _ => .ok none

/-- One iteration of the `manage_groups.load_students` loop: the
username is normalized first and the record is kept only when both the
normalized username and the stripped group are non-empty. -/
def gRowOf (it : Json) : Except LoadErr (Option GRow) :=
  match it with
  | .obj ps =>
    match strOrEmpty (getKey ps "username") with
    | .error e => .error e
    | .ok u0 =>
      match strOrEmpty (getKey ps "group") with
      | .error e => .error e
      | .ok g0 =>
        match strOrEmpty (getKey ps "name") with
        | .error e => .error e
        | .ok n0 =>
          let u := stripSigils (pyStripStr u0)
          let g := pyStripStr g0
          .ok (if u.isEmpty || g.isEmpty then none else some ⟨pyStripStr n0, u, g⟩)
  | _ => .ok none

def collectRows (f : Json → Except LoadErr (Option α)) : List Json → Except LoadErr (List α)
  | [] => .ok []
  | it :: its =>
    match f it with
    | .error e => .error e
    | .ok none => collectRows f its
    | .ok (some r) =>
      match collectRows f its with
      | .error e => .error e
      | .ok rs => .ok (r :: rs)

/-- `invite_to_org.load_students`: pre-pass, parse, filter/normalize,
fail fatally when no valid record remains. -/
def load_students_inv (raw : String) : Except LoadErr (List IRow) :=
  match parseJson (stripTrailingCommas raw) with
  | none => .error .parseErr
  | some j =>
    match iterItems j with
    | .error e => .error e
    | .ok items =>
      match collectRows iRowOf items with
      | .error e => .error e
      | .ok rows => if rows.isEmpty then .error .emptyRoster else .ok rows

/-- `manage_groups.load_students`. -/
def load_students_grp (raw : String) : Except LoadErr (List GRow) :=
  match parseJson (stripTrailingCommas raw) with
  | none => .error .parseErr
  | some j =>
    match iterItems j with
    | .error e => .error e
    | .ok items =>
      match collectRows gRowOf items with
      | .error e => .error e
      | .ok rows => if rows.isEmpty then .error .emptyRoster else .ok rows

/-! ## Slugification (`manage_groups.slugify`)

`str.lower()` is modelled on its ASCII fragment by an explicit table of
the 26 letter pairs (roster group names are ASCII); the two `re.sub`
calls collapse maximal character runs, implemented by a two-state scan. -/

def lowerPairs : List (Char × Char) :=
  [('A', 'a'), ('B', 'b'), ('C', 'c'), ('D', 'd'), ('E', 'e'), ('F', 'f'), ('G', 'g'),
   ('H', 'h'), ('I', 'i'), ('J', 'j'), ('K', 'k'), ('L', 'l'), ('M', 'm'), ('N', 'n'),
   ('O', 'o'), ('P', 'p'), ('Q', 'q'), ('R', 'r'), ('S', 's'), ('T', 't'), ('U', 'u'),
   ('V', 'v'), ('W', 'w'), ('X', 'x'), ('Y', 'y'), ('Z', 'z')]

/-- ASCII fragment of Python `str.lower`, per character. -/
def pyLower (c : Char) : Char :=
  match lowerPairs.find? (fun p => p.1 == c) with
  | some p => p.2
  | none => c

/-- ASCII fragment of Python `str.upper`, per character. -/
def pyUpper (c : Char) : Char :=
  match lowerPairs.find? (fun p => p.2 == c) with
  | some p => p.1
  | none => c

/-- The character class `[a-z0-9]` of the slugification regex. -/
def isLowerAl (c : Char) : Bool := ('a' ≤ c && c ≤ 'z') || ('0' ≤ c && c ≤ '9')

/-- The character class `[^a-z0-9]` of the first slugification regex. -/
def nonAl (c : Char) : Bool := !(isLowerAl c)

/-- The character class `-` of the second slugification regex and of
the final `strip("-")`. -/
def isDash (c : Char) : Bool := c == '-'

/-- `re.sub(p+ , rep)`: replace every maximal non-empty run of characters
satisfying `p` by the single character `rep`.  The Boolean state records
whether the scan is inside a run that has already been replaced. -/
def collapseGo (p : Char → Bool) (rep : Char) : Bool → List Char → List Char
  | _, [] => []
  | inRun, c :: rest =>
    match p c, inRun with
    | true, true => collapseGo p rep true rest
    | true, false => rep :: collapseGo p rep true rest
    | false, _ => c :: collapseGo p rep false rest

def collapseRuns (p : Char → Bool) (rep : Char) (l : List Char) : List Char :=
  collapseGo p rep false l

/-- Python `str.strip("-")`. -/
def stripDashes (l : List Char) : List Char :=
  ((l.dropWhile isDash).reverse.dropWhile isDash).reverse

/-- `manage_groups.slugify` on character lists:
strip, lowercase, collapse `[^a-z0-9]+` runs to `"-"`, collapse `-+`
runs, strip `"-"` at the ends, fall back to `"team"` when empty. -/
def slugifyL (l : List Char) : List Char :=
  let s1 := (pyStrip l).map pyLower
  let s2 := collapseRuns nonAl '-' s1
  let s3 := collapseRuns isDash '-' s2
  let s4 := stripDashes s3
  if s4.isEmpty then ['t', 'e', 'a', 'm'] else s4

/-- `manage_groups.slugify`. -/
def slugify (s : String) : String := ⟨slugifyL s.data⟩

/-! ## The remote platform

The state of the remote organization, the read queries of both scripts,
and the state effect of each mutating call.  Success/failure of mutating
calls is drawn from an explicit `Remote` oracle; `Remote.allOk` is the
all-success behaviour.  Modelled platform behaviour: an invitation
created from a resolved user id carries that user's login; a created
team's slug is derived from its display name by the same slugification. -/

/-- Success/failure behaviour of the remote system's mutating endpoints. -/
structure Remote where
  inviteOk : Nat → Bool
  createTeamOk : String → Bool
  putOk : String → String → Bool

def Remote.allOk : Remote := ⟨fun _ => true, fun _ => true, fun _ _ => true⟩

/-- A pending organization invitation as listed by the invitations
endpoint (`login`/`email` may each be null). -/
structure Invitation where
  login : Option String
  email : Option String
deriving DecidableEq

/-- An entry of the platform's user directory (`users/<login>` → id). -/
structure DirEntry where
  login : String
  uid : Nat
deriving DecidableEq

/-- Remote organization state read by `invite_to_org.py`. -/
structure OrgState where
  members : List String
  invites : List Invitation
  users : List DirEntry
deriving DecidableEq

/-- `is_member` (line 37): membership endpoint answers for org members. -/
def is_member (st : OrgState) (u : String) : Bool := st.members.contains u

/-- `has_pending` (line 40): some pending invitation matches `u` by
login or email, missing fields compared as `""` (the `jq` `// ""`). -/
def has_pending (st : OrgState) (u : String) : Bool :=
  st.invites.any (fun i => i.login.getD "" == u || i.email.getD "" == u)

/-- `resolve_uid` (line 31): user directory lookup. -/
def resolve_uid (st : OrgState) (u : String) : Option Nat :=
  (st.users.find? (fun e => e.login == u)).map (fun e => e.uid)

/-- The login the platform records on an invitation created for `uid`. -/
def loginOf (st : OrgState) (uid : Nat) : Option String :=
  (st.users.find? (fun e => e.uid == uid)).map (fun e => e.login)

/-- State effect of a successful `createInvitation` (line 47): a pending
invitation for the resolved user appears. -/
def create_invitation (st : OrgState) (uid : Nat) : OrgState :=
  { st with invites := st.invites ++ [⟨loginOf st uid, none⟩] }

/-- Directory well-formedness of a real platform: user ids are unique. -/
def OrgState.wf (st : OrgState) : Prop := (st.users.map (fun e => e.uid)).Nodup

instance (st : OrgState) : Decidable st.wf := by
  unfold OrgState.wf; infer_instance

/-! ## Reconciler, invitation workflow (`invite_to_org.main`, lines 74-85) -/

inductive IOutcome
  | skippedMember
  | skippedPending
  | wouldInvite
  | cannotResolve
  | invited (uid : Nat)
  | inviteFailed (uid : Nat)
deriving DecidableEq

/-- The two outcomes the script reports as "skip". -/
def IOutcome.isSkip : IOutcome → Bool
  | .skippedMember | .skippedPending => true
  | _ => false

/-- The per-person counter updates (`ok`, `sk`, `fail`, lines 78-84). -/
def tally (os : List IOutcome) : Nat × Nat × Nat :=
  os.foldl
    (fun t o =>
      match o with
      | .wouldInvite | .invited _ => (t.1 + 1, t.2.1, t.2.2)
      | .skippedMember | .skippedPending => (t.1, t.2.1 + 1, t.2.2)
      | .cannotResolve | .inviteFailed _ => (t.1, t.2.1, t.2.2 + 1))
    (0, 0, 0)

/-- The queries and the invitation-creation result visible to one loop
iteration. -/
structure Api where
  isMember : String → Bool
  pending : String → Bool
  resolveUid : String → Option Nat
  createOk : Nat → Bool

/-- The decision cascade of one loop iteration (lines 78-84). -/
def inviteOne (api : Api) (dry : Bool) (u : String) : IOutcome :=
  if !(u.data.contains '@') && api.isMember u then .skippedMember
  else if api.pending u then .skippedPending
  else if dry then .wouldInvite
  else
    match api.resolveUid u with
    | none => .cannotResolve
    | some uid => if api.createOk uid then .invited uid else .inviteFailed uid

def apiOf (oc : Remote) (st : OrgState) : Api :=
  ⟨is_member st, has_pending st, resolve_uid st, oc.inviteOk⟩

inductive ICall
  | createInvitation (uid : Nat)
deriving DecidableEq

/-- One loop iteration with its state effect and the mutating calls it
issues (a failed POST is still an issued call). -/
def inviteStep (oc : Remote) (st : OrgState) (dry : Bool) (u : String) :
    IOutcome × OrgState × List ICall :=
  match inviteOne (apiOf oc st) dry u with
  | .invited uid => (.invited uid, create_invitation st uid, [.createInvitation uid])
  | .inviteFailed uid => (.inviteFailed uid, st, [.createInvitation uid])
  | o => (o, st, [])

structure IRes where
  outcomes : List (String × IOutcome)
  state : OrgState
  calls : List ICall
deriving DecidableEq

/-- The whole invitation loop, in input order. -/
def inviteRun (oc : Remote) (dry : Bool) : OrgState → List String → IRes
  | st, [] => ⟨[], st, []⟩
  | st, u :: us =>
    let s := inviteStep oc st dry u
    let r := inviteRun oc dry s.2.1 us
    ⟨(u, s.1) :: r.outcomes, r.state, s.2.2 ++ r.calls⟩

/-- The de-duplication of line 71 (`seen` set, first occurrence wins). -/
def dedupGo : List String → List IRow → List IRow
  | _, [] => []
  | seen, r :: rs =>
    if seen.contains r.username then dedupGo seen rs
    else r :: dedupGo (r.username :: seen) rs

def dedupStudents (rows : List IRow) : List IRow := dedupGo [] rows

/-- `invite_to_org.main` after the prechecks: load, de-dupe, reconcile.
A load failure is the nonzero process exit. -/
def mainInvite (raw : String) (dry : Bool) (oc : Remote) (st : OrgState) :
    Except LoadErr IRes :=
  match load_students_inv raw with
  | .error e => .error e
  | .ok rows => .ok (inviteRun oc dry st ((dedupStudents rows).map (fun r => r.username)))

/-! ## Reconciler, team workflow (`manage_groups.main`, lines 87-130) -/

inductive Role
  | member
  | maintainer
deriving DecidableEq

/-- A team on the remote platform. -/
structure Team where
  slug : String
  roster : List (String × Role)
deriving DecidableEq

/-- The remote team state of the organization. -/
abbrev GState := List Team

/-- `team_exists` (line 20). -/
def team_exists (st : GState) (slug : String) : Bool :=
  st.any (fun t => t.slug == slug)

/-- `team_membership` (line 33): role of `u` in the team, `none` when
the team or the membership is absent. -/
def team_membership (st : GState) (slug u : String) : Option Role :=
  match st.find? (fun t => t.slug == slug) with
  | none => none
  | some t => (t.roster.find? (fun m => m.1 == u)).map (fun m => m.2)

def setMem : List (String × Role) → String → Role → List (String × Role)
  | [], u, r => [(u, r)]
  | (v, r0) :: rest, u, r =>
    if v == u then (v, r) :: rest else (v, r0) :: setMem rest u r

/-- State effect of a successful `add_to_team` PUT (line 40): the
membership role of `u` in every team with that slug is set to `r`; a
PUT against an absent team changes nothing (it fails remotely). -/
def add_to_team (st : GState) (slug u : String) (r : Role) : GState :=
  st.map (fun t => if t.slug == slug then { t with roster := setMem t.roster u r } else t)

/-- State effect of a successful `create_team` POST (line 23): the
platform derives the slug of the new team from its display name,
modelled by the same slugification. -/
def create_team (st : GState) (name : String) : GState :=
  st ++ [⟨slugify name, []⟩]

inductive TCall
  | createTeam (name : String)
  | putMembership (slug u : String) (r : Role)
deriving DecidableEq

inductive GFatal
  | load (e : LoadErr)
  | createTeamFailed (name : String)
deriving DecidableEq

inductive TEvent
  | teamAlready (slug : String)
  | wouldCreate (slug : String)
  | createdTeam (slug : String)
  | instrAlreadyMaint (slug u : String)
  | wouldPromote (slug u : String)
  | promoted (slug u : String) (ok : Bool)
  | wouldAddInstr (slug u : String)
  | addedInstr (slug u : String) (ok : Bool)
  | studentAlready (slug u : String) (r : Role)
  | wouldAddStudent (slug u : String)
  | addedStudent (slug u : String) (ok : Bool)
deriving DecidableEq

/-- The events the script reports as already satisfied. -/
def TEvent.isSkip : TEvent → Bool
  | .teamAlready _ | .instrAlreadyMaint _ _ | .studentAlready _ _ _ => true
  | _ => false

/-- Lines 103-118: ensure one instructor is a maintainer of the team. -/
def procInstr (oc : Remote) (dry : Bool) (slug : String) (st : GState) (u : String) :
    GState × List TCall × List TEvent :=
  match team_membership st slug u with
  | some .maintainer => (st, [], [.instrAlreadyMaint slug u])
  | some .member =>
    if dry then (st, [], [.wouldPromote slug u])
    else
      let ok := oc.putOk slug u
      ((if ok then add_to_team st slug u .maintainer else st),
       [.putMembership slug u .maintainer], [.promoted slug u ok])
  | none =>
    if dry then (st, [], [.wouldAddInstr slug u])
    else
      let ok := oc.putOk slug u
      ((if ok then add_to_team st slug u .maintainer else st),
       [.putMembership slug u .maintainer], [.addedInstr slug u ok])

/-- Lines 121-130: ensure one student is present as at least a member. -/
def procStudent (oc : Remote) (dry : Bool) (slug : String) (st : GState) (u : String) :
    GState × List TCall × List TEvent :=
  match team_membership st slug u with
  | some r => (st, [], [.studentAlready slug u r])
  | none =>
    if dry then (st, [], [.wouldAddStudent slug u])
    else
      let ok := oc.putOk slug u
      ((if ok then add_to_team st slug u .member else st),
       [.putMembership slug u .member], [.addedStudent slug u ok])

/-- Sequential pass of a per-user action over a username list. -/
def foldProc (f : GState → String → GState × List TCall × List TEvent) :
    GState → List String → GState × List TCall × List TEvent
  | st, [] => (st, [], [])
  | st, u :: us =>
    let a := f st u
    let b := foldProc f a.1 us
    (b.1, a.2.1 ++ b.2.1, a.2.2 ++ b.2.2)

structure TRes where
  fatal : Option GFatal
  state : GState
  calls : List TCall
  events : List TEvent
deriving DecidableEq

/-- Lines 88-130 for one group: slugify the name, check/create the team
(fatal abort when creation fails), then the instructor pass and the
student pass. -/
def procGroup (oc : Remote) (dry : Bool) (instr : List String) (st : GState)
    (gname : String) (ms : List String) : TRes :=
  let slug := slugify gname
  if team_exists st slug then
    let a := foldProc (procInstr oc dry slug) st instr
    let b := foldProc (procStudent oc dry slug) a.1 ms
    ⟨none, b.1, a.2.1 ++ b.2.1, TEvent.teamAlready slug :: (a.2.2 ++ b.2.2)⟩
  else if dry then
    let a := foldProc (procInstr oc dry slug) st instr
    let b := foldProc (procStudent oc dry slug) a.1 ms
    ⟨none, b.1, a.2.1 ++ b.2.1, TEvent.wouldCreate slug :: (a.2.2 ++ b.2.2)⟩
  else if oc.createTeamOk gname then
    let st0 := create_team st gname
    let a := foldProc (procInstr oc dry slug) st0 instr
    let b := foldProc (procStudent oc dry slug) a.1 ms
    ⟨none, b.1, TCall.createTeam gname :: (a.2.1 ++ b.2.1),
     TEvent.createdTeam slug :: (a.2.2 ++ b.2.2)⟩
  else ⟨some (.createTeamFailed gname), st, [TCall.createTeam gname], []⟩

/-- The loop over the sorted groups; a fatal team-creation failure
aborts the run (`sys.exit(1)` in `create_team`). -/
def teamRun (oc : Remote) (dry : Bool) (instr : List String) :
    GState → List (String × List String) → TRes
  | st, [] => ⟨none, st, [], []⟩
  | st, (g, ms) :: rest =>
    let a := procGroup oc dry instr st g ms
    match a.fatal with
    | some f => ⟨some f, a.state, a.calls, a.events⟩
    | none =>
      let b := teamRun oc dry instr a.state rest
      ⟨b.fatal, b.state, a.calls ++ b.calls, a.events ++ b.events⟩

/-- Lines 81-83: `groups.setdefault(group, []).append(username)` —
group order is first appearance, member order is roster order. -/
def addToGroups (gs : List (String × List String)) (g u : String) :
    List (String × List String) :=
  match gs with
  | [] => [(g, [u])]
  | (g0, us) :: rest =>
    if g0 == g then (g0, us ++ [u]) :: rest else (g0, us) :: addToGroups rest g u

def buildGroups (rows : List GRow) : List (String × List String) :=
  rows.foldl (fun gs r => addToGroups gs r.group r.username) []

/-- Line 87: `sorted(groups.items())` — keys are unique, so the sort is
decided by the group name. -/
def sortedGroups (rows : List GRow) : List (String × List String) :=
  (buildGroups rows).mergeSort (fun a b => a.1 ≤ b.1)

/-- Line 84: the `--instructors` argument, split on commas, blanks
dropped, each entry stripped and cleared of leading sigils. -/
def parseInstructors (arg : String) : List String :=
  (arg.splitOn ",").filterMap
    (fun u => if (pyStripStr u).isEmpty then none else some (stripSigils (pyStripStr u)))

/-- `manage_groups.main` after the prechecks: load, group, reconcile.
A load failure is the nonzero process exit. -/
def mainGroups (raw : String) (instructorsArg : String) (dry : Bool) (oc : Remote)
    (st : GState) : TRes :=
  match load_students_grp raw with
  | .error e => ⟨some (.load e), st, [], []⟩
  | .ok rows => teamRun oc dry (parseInstructors instructorsArg) st (sortedGroups rows)

/-! ## Claim C9: the pre-pass is textual, not JSON-structural -/

/-- A roster file in which a quoted string value contains a comma
followed by whitespace and a closing brace. -/
def rawC9 : String := r#"[{"name":"x, }","username":"bob"}]"#

/-- C9: the trailing-comma tolerance is a textual pre-pass over the raw
file, so it also fires inside quoted strings: loading `rawC9` yields the
`name` value `"x}"`, while a strict JSON parse of the same document
yields `"x, }"` — the comma (and the whitespace) inside the string
value is deleted by the pre-pass. -/
theorem C9_prepass_edits_inside_strings :
    load_students_inv rawC9 = .ok [⟨r"x}", "bob"⟩] ∧
    parseJson rawC9 =
      some (.arr [.obj [("name", .str r"x, }"), ("username", .str "bob")]]) ∧
    (r"x}" : String) ≠ r"x, }" := by
  refine ⟨rfl, rfl, by decide⟩

/-! ## Claim C8: empty roster is fatal -/

/-- C8: an input roster that yields zero valid records after filtering
makes both loaders fail with the fatal `emptyRoster` condition — the
process exits nonzero and neither main performs any reconciliation
step — and the empty array `[]` is such an input for both programs. -/
theorem C8_empty_roster_is_fatal :
    (∀ raw j items, parseJson (stripTrailingCommas raw) = some j →
      iterItems j = .ok items → collectRows iRowOf items = .ok [] →
      load_students_inv raw = .error .emptyRoster ∧
      ∀ dry oc st, mainInvite raw dry oc st = .error .emptyRoster) ∧
    (∀ raw j items, parseJson (stripTrailingCommas raw) = some j →
      iterItems j = .ok items → collectRows gRowOf items = .ok [] →
      load_students_grp raw = .error .emptyRoster ∧
      ∀ i dry oc gst, mainGroups raw i dry oc gst = ⟨some (.load .emptyRoster), gst, [], []⟩) ∧
    load_students_inv "[]" = .error .emptyRoster ∧
    load_students_grp "[]" = .error .emptyRoster := by
  refine ⟨?_, ?_, rfl, rfl⟩
  · intro raw j items h1 h2 h3
    have hload : load_students_inv raw = .error .emptyRoster := by
      simp only [load_students_inv, h1, h2, h3, List.isEmpty_nil, if_pos]
    exact ⟨hload, fun dry oc st => by simp only [mainInvite, hload]⟩
  · intro raw j items h1 h2 h3
    have hload : load_students_grp raw = .error .emptyRoster := by
      simp only [load_students_grp, h1, h2, h3, List.isEmpty_nil, if_pos]
    exact ⟨hload, fun i dry oc gst => by simp only [mainGroups, hload]⟩

/-- Witness for `C8_empty_roster_is_fatal`: the hypotheses are
satisfiable, at the empty-array input. -/
theorem C8_empty_roster_is_fatal_witness :
    load_students_inv "[]" = .error .emptyRoster ∧
    mainInvite "[]" false .allOk ⟨[], [], []⟩ = .error .emptyRoster ∧
    mainGroups "[]" "i" true .allOk [] = ⟨some (.load .emptyRoster), [], [], []⟩ := by
  refine ⟨(C8_empty_roster_is_fatal.1 "[]" (.arr []) [] rfl rfl rfl).1,
    (C8_empty_roster_is_fatal.1 "[]" (.arr []) [] rfl rfl rfl).2 false .allOk ⟨[], [], []⟩,
    (C8_empty_roster_is_fatal.2.1 "[]" (.arr []) [] rfl rfl rfl).2 "i" true .allOk []⟩

/-! ## Claim C4: loader normalization -/

/-- Modelled from the spec: normalization as the spec words it — strip
ONE leading sigil character if present (comparison definition for the
refinement check of C4; the code's `lstrip("@")` strips every leading
sigil). -/
def stripOneSigil (s : String) : String :=
  match s.data with
  | '@' :: rest => ⟨rest⟩
  | _ => s

/-- C4 counterexample: the claim fails on the code twice over.  The
invite loader keeps the record `{"username":"@"}` — its raw field is
truthy, so the row survives the filter although normalization empties
the username — producing an output record with an empty username; and
the loaders strip every leading sigil, not one: `"@@bob"` loads as
`"bob"`, while stripping one sigil (the spec's wording) gives
`"@bob"`. -/
theorem C4_counterexample :
    load_students_inv r#"[{"username":"@"}]"# = .ok [⟨"", ""⟩] ∧
    (IRow.mk "" "").username = "" ∧
    load_students_grp r#"[{"username":"@@bob","group":"g"}]"# = .ok [⟨"", "bob", "g"⟩] ∧
    stripOneSigil (pyStripStr "@@bob") = "@bob" ∧
    ("bob" : String) ≠ "@bob" :=
  ⟨rfl, rfl, rfl, rfl, by decide⟩

theorem head?_dropWhile_ne {p : Char → Bool} {l : List Char} {c : Char}
    (h : (l.dropWhile p).head? = some c) : p c = false := by
  have hd := List.head?_dropWhile_not p l
  rw [h] at hd
  exact hd

/-- The result of `lstrip("@")` never starts with the sigil. -/
theorem stripSigils_no_lead (s : String) : (stripSigils s).data.head? ≠ some '@' := by
  unfold stripSigils
  intro h
  have := @head?_dropWhile_ne (fun c => c == '@') s.data _ h
  simp at this

/-- Rows of a successful group load all come from `gRowOf`. -/
theorem load_students_grp_ok {raw : String} {rows : List GRow}
    (h : load_students_grp raw = .ok rows) :
    ∃ items, collectRows gRowOf items = .ok rows := by
  unfold load_students_grp at h
  split at h
  · cases h
  · split at h
    · cases h
    · split at h
      · cases h
      · split at h
        · cases h
        · cases h
          exact ⟨_, by assumption⟩

/-- Rows of a successful invite load all come from `iRowOf`. -/
theorem load_students_inv_ok {raw : String} {rows : List IRow}
    (h : load_students_inv raw = .ok rows) :
    ∃ items, collectRows iRowOf items = .ok rows := by
  unfold load_students_inv at h
  split at h
  · cases h
  · split at h
    · cases h
    · split at h
      · cases h
      · split at h
        · cases h
        · cases h
          exact ⟨_, by assumption⟩

/-- Every row of a successful `collectRows` is produced by `f` on some
item. -/
theorem collectRows_mem {α : Type} {f : Json → Except LoadErr (Option α)} :
    ∀ {items : List Json} {rows : List α}, collectRows f items = .ok rows →
      ∀ r ∈ rows, ∃ it, f it = .ok (some r) := by
  intro items
  induction items with
  | nil =>
    intro rows h r hr
    simp only [collectRows] at h
    cases h
    simp at hr
  | cons it its ih =>
    intro rows h r hr
    simp only [collectRows] at h
    cases hfit : f it with
    | error e => rw [hfit] at h; cases h
    | ok o =>
      cases o with
      | none => rw [hfit] at h; exact ih h r hr
      | some r0 =>
        rw [hfit] at h
        cases hrec : collectRows f its with
        | error e => rw [hrec] at h; cases h
        | ok rs =>
          rw [hrec] at h
          cases h
          rcases List.mem_cons.mp hr with hr | hr
          · exact ⟨it, by rw [hfit, hr]⟩
          · exact ih hrec r hr

/-- Shape of a row produced by `gRowOf`. -/
theorem gRowOf_some {it : Json} {r : GRow} (h : gRowOf it = .ok (some r)) :
    r.username.isEmpty = false ∧ r.group.isEmpty = false ∧
      ∃ u0, r.username = stripSigils (pyStripStr u0) := by
  cases it with
  | obj ps =>
    simp only [gRowOf] at h
    split at h
    · cases h
    · split at h
      · cases h
      · split at h
        · cases h
        · split at h
          · cases h
          · next hcond =>
            simp only [Except.ok.injEq, Option.some.injEq] at h
            subst h
            rcases Bool.or_eq_false_iff.mp (Bool.of_not_eq_true hcond) with ⟨hu, hg⟩
            exact ⟨hu, hg, _, rfl⟩
  | null => simp [gRowOf] at h
  | bool b => simp [gRowOf] at h
  | num n => simp [gRowOf] at h
  | str s => simp [gRowOf] at h
  | arr xs => simp [gRowOf] at h

/-- Shape of a row produced by `iRowOf`. -/
theorem iRowOf_some {it : Json} {r : IRow} (h : iRowOf it = .ok (some r)) :
    ∃ su, r.username = stripSigils (pyStripStr su) := by
  cases it with
  | obj ps =>
    simp only [iRowOf] at h
    split at h
    · next u hk =>
      split at h
      · split at h
        · split at h
          · cases h
          · simp only [Except.ok.injEq, Option.some.injEq] at h
            subst h
            exact ⟨_, rfl⟩
        · cases h
      · cases h
    · cases h
  | null => simp [iRowOf] at h
  | bool b => simp [iRowOf] at h
  | num n => simp [iRowOf] at h
  | str s => simp [iRowOf] at h
  | arr xs => simp [iRowOf] at h

/-- C4 (amended): the loaders trim the username and strip ALL leading
sigil characters.  The group-aware loader filters after normalization,
so every record it outputs has a non-empty username and a non-empty
group.  The invite loader filters on the raw field's truthiness before
normalization, so its output usernames can be empty (see the
counterexample) but still never start with a sigil. -/
theorem C4_loader_normalization :
    (∀ raw rows, load_students_grp raw = .ok rows →
      ∀ r ∈ rows, r.username.isEmpty = false ∧ r.group.isEmpty = false ∧
        r.username.data.head? ≠ some '@') ∧
    (∀ raw rows, load_students_inv raw = .ok rows →
      ∀ r ∈ rows, r.username.data.head? ≠ some '@') := by
  constructor
  · intro raw rows h r hr
    obtain ⟨items, hc⟩ := load_students_grp_ok h
    obtain ⟨it, hit⟩ := collectRows_mem hc r hr
    obtain ⟨hu, hg, u0, hform⟩ := gRowOf_some hit
    exact ⟨hu, hg, by rw [hform]; exact stripSigils_no_lead _⟩
  · intro raw rows h r hr
    obtain ⟨items, hc⟩ := load_students_inv_ok h
    obtain ⟨it, hit⟩ := collectRows_mem hc r hr
    obtain ⟨su, hform⟩ := iRowOf_some hit
    rw [hform]
    exact stripSigils_no_lead _

/-- Witness for `C4_loader_normalization`: instantiated on a concrete
roster for both loaders. -/
theorem C4_loader_normalization_witness :
    ((GRow.mk "" "bob" "g").username.isEmpty = false ∧
      (GRow.mk "" "bob" "g").group.isEmpty = false ∧
      (GRow.mk "" "bob" "g").username.data.head? ≠ some '@') ∧
    (IRow.mk "" "bob").username.data.head? ≠ some '@' :=
  ⟨C4_loader_normalization.1 r#"[{"username":"@@bob","group":"g"}]"# [⟨"", "bob", "g"⟩]
      rfl ⟨"", "bob", "g"⟩ (List.mem_singleton.mpr rfl),
    C4_loader_normalization.2 r#"[{"username":"@bob"}]"# [⟨"", "bob"⟩]
      rfl ⟨"", "bob"⟩ (List.mem_singleton.mpr rfl)⟩

/-! ## Claim C2: de-duplication -/

/-- The roster of the spec's duplication scenario (trailing comma). -/
def rawScenario : String :=
  r#"[{"username":"alice","group":"A"},{"username":"bob","group":"A"},{"username":"alice","group":"A"},]"#

/-- C2 counterexample: the team workflow performs no de-duplication.
The scenario roster loads as three records, and the group mapping built
by `manage_groups.main` lists `alice` twice in group `"A"` — not the
de-duplicated two-record list the claim asserts for both workflows. -/
theorem C2_counterexample :
    load_students_grp rawScenario =
      .ok [⟨"", "alice", "A"⟩, ⟨"", "bob", "A"⟩, ⟨"", "alice", "A"⟩] ∧
    sortedGroups [⟨"", "alice", "A"⟩, ⟨"", "bob", "A"⟩, ⟨"", "alice", "A"⟩] =
      [("A", ["alice", "bob", "alice"])] ∧
    (["alice", "bob", "alice"] : List String) ≠ ["alice", "bob"] := by
  refine ⟨rfl, ?_, by decide⟩
  rw [sortedGroups,
    show buildGroups [⟨"", "alice", "A"⟩, ⟨"", "bob", "A"⟩, ⟨"", "alice", "A"⟩] =
      [("A", ["alice", "bob", "alice"])] from rfl]
  simp

/-- The de-duplicated rows are a sublist of the input (stable order). -/
theorem dedupGo_sublist : ∀ (rows : List IRow) (seen : List String),
    List.Sublist (dedupGo seen rows) rows := by
  intro rows
  induction rows with
  | nil => intro seen; simp [dedupGo]
  | cons r rs ih =>
    intro seen
    unfold dedupGo
    cases h : seen.contains r.username with
    | true => simp only [if_pos]; exact (ih seen).cons r
    | false => simp only [Bool.false_eq_true, if_neg, not_false_iff]; exact (ih _).cons₂ r

/-- No output row's username is in `seen`, and output usernames are
pairwise distinct. -/
theorem dedupGo_spec : ∀ (rows : List IRow) (seen : List String),
    (∀ r ∈ dedupGo seen rows, seen.contains r.username = false) ∧
    ((dedupGo seen rows).map (fun r => r.username)).Nodup := by
  intro rows
  induction rows with
  | nil => intro seen; simp [dedupGo]
  | cons r rs ih =>
    intro seen
    unfold dedupGo
    cases h : seen.contains r.username with
    | true => simpa using ih seen
    | false =>
      simp only [Bool.false_eq_true, if_neg, not_false_iff]
      constructor
      · intro q hq
        rcases List.mem_cons.mp hq with hq | hq
        · subst hq; exact h
        · have := (ih (r.username :: seen)).1 q hq
          simp only [List.contains_cons, Bool.or_eq_false_iff] at this
          exact this.2
      · simp only [List.map_cons, List.nodup_cons]
        refine ⟨?_, (ih (r.username :: seen)).2⟩
        intro hmem
        obtain ⟨q, hq, hqu⟩ := List.mem_map.mp hmem
        have := (ih (r.username :: seen)).1 q hq
        simp only [List.contains_cons, Bool.or_eq_false_iff, beq_eq_false_iff_ne] at this
        exact this.1 hqu

/-- First occurrence wins: every output row is the first input row
carrying its username (so the first occurrence's `name` is retained). -/
theorem dedupGo_first : ∀ (rows : List IRow) (seen : List String) (r : IRow),
    r ∈ dedupGo seen rows →
    rows.find? (fun q => q.username == r.username) = some r := by
  intro rows
  induction rows with
  | nil => intro seen r hr; simp [dedupGo] at hr
  | cons r0 rs ih =>
    intro seen r hr
    unfold dedupGo at hr
    cases h : seen.contains r0.username with
    | true =>
      rw [h] at hr
      simp only [if_pos] at hr
      have hne : (r0.username == r.username) = false := by
        by_contra hc
        have heq : r0.username = r.username := by
          cases hb : r0.username == r.username with
          | false => exact absurd hb hc
          | true => exact beq_iff_eq.mp hb
        have := (dedupGo_spec rs seen).1 r hr
        rw [← heq] at this
        rw [h] at this
        cases this
      rw [List.find?_cons_of_neg _ (by simp [hne]), ih seen r hr]
    | false =>
      rw [h] at hr
      simp only [Bool.false_eq_true, if_neg, not_false_iff] at hr
      rcases List.mem_cons.mp hr with hr | hr
      · subst hr
        rw [List.find?_cons_of_pos _ (by simp)]
      · have hnotin := (dedupGo_spec rs (r0.username :: seen)).1 r hr
        simp only [List.contains_cons, Bool.or_eq_false_iff, beq_eq_false_iff_ne] at hnotin
        rw [List.find?_cons_of_neg _ (by simp; exact fun hc => hnotin.1 hc.symm),
          ih _ r hr]

/-- Nothing is lost: every input username survives de-duplication. -/
theorem dedupGo_complete : ∀ (rows : List IRow) (seen : List String) (r : IRow),
    r ∈ rows → seen.contains r.username = true ∨
      ∃ q ∈ dedupGo seen rows, q.username = r.username := by
  intro rows
  induction rows with
  | nil => intro seen r hr; cases hr
  | cons r0 rs ih =>
    intro seen r hr
    unfold dedupGo
    cases h : seen.contains r0.username with
    | true =>
      simp only [if_pos]
      rcases List.mem_cons.mp hr with hr | hr
      · subst hr; exact .inl h
      · exact ih seen r hr
    | false =>
      simp only [Bool.false_eq_true, if_neg, not_false_iff]
      rcases List.mem_cons.mp hr with hr | hr
      · subst hr; exact .inr ⟨r, List.mem_cons_self _ _, rfl⟩
      · rcases ih (r0.username :: seen) r hr with hc | ⟨q, hq, hqu⟩
        · simp only [List.contains_cons, Bool.or_eq_true_iff] at hc
          rcases hc with hc | hc
          · exact .inr ⟨r0, List.mem_cons_self _ _, (beq_iff_eq.mp hc).symm⟩
          · exact .inl hc
        · exact .inr ⟨q, List.mem_cons_of_mem _ hq, hqu⟩

/-- C2 (amended): only the invitation workflow de-duplicates.  Its
de-duplication (line 71 of `invite_to_org.py`) keeps a stable-order
sublist keyed on username — pairwise-distinct usernames, each kept row
being the first input row with its username, and no username lost.  The
team workflow builds its group member lists without de-duplication (the
scenario roster maps group `"A"` to `alice, bob, alice`, see the
counterexample), but the reconciliation makes the duplicate a skip, so
the scenario still ends with team slug `"a"` containing exactly the two
unique members. -/
theorem C2_dedup_and_scenario :
    (∀ rows : List IRow, List.Sublist (dedupStudents rows) rows) ∧
    (∀ rows : List IRow, ((dedupStudents rows).map (fun r => r.username)).Nodup) ∧
    (∀ (rows : List IRow) (r : IRow), r ∈ dedupStudents rows →
      rows.find? (fun q => q.username == r.username) = some r) ∧
    (∀ (rows : List IRow) (r : IRow), r ∈ rows →
      ∃ q ∈ dedupStudents rows, q.username = r.username) ∧
    load_students_inv rawScenario = .ok [⟨"", "alice"⟩, ⟨"", "bob"⟩, ⟨"", "alice"⟩] ∧
    dedupStudents [⟨"", "alice"⟩, ⟨"", "bob"⟩, ⟨"", "alice"⟩] = [⟨"", "alice"⟩, ⟨"", "bob"⟩] ∧
    slugify "A" = "a" ∧
    (teamRun .allOk false [] [] [("A", ["alice", "bob", "alice"])]).state =
      [⟨"a", [("alice", .member), ("bob", .member)]⟩] := by
  refine ⟨fun rows => dedupGo_sublist rows [],
    fun rows => (dedupGo_spec rows []).2,
    fun rows r hr => dedupGo_first rows [] r hr,
    fun rows r hr => ?_, rfl, rfl, rfl, rfl⟩
  rcases dedupGo_complete rows [] r hr with hc | h
  · simp [List.contains] at hc
  · exact h

/-- Witness for `C2_dedup_and_scenario`: its membership hypotheses
instantiated on the scenario rows. -/
theorem C2_dedup_and_scenario_witness :
    ([⟨"", "alice"⟩, ⟨"", "bob"⟩, ⟨"", "alice"⟩] : List IRow).find?
        (fun q => q.username == (IRow.mk "" "bob").username) = some ⟨"", "bob"⟩ ∧
    ∃ q ∈ dedupStudents [(⟨"", "alice"⟩ : IRow), ⟨"", "bob"⟩, ⟨"", "alice"⟩],
      q.username = (IRow.mk "" "alice").username := by
  refine ⟨C2_dedup_and_scenario.2.2.1 [⟨"", "alice"⟩, ⟨"", "bob"⟩, ⟨"", "alice"⟩]
      ⟨"", "bob"⟩ ?_, C2_dedup_and_scenario.2.2.2.1 [⟨"", "alice"⟩, ⟨"", "bob"⟩, ⟨"", "alice"⟩]
      ⟨"", "alice"⟩ ?_⟩
  · rw [C2_dedup_and_scenario.2.2.2.2.2.1]
    decide
  · decide

/-! ## Claim C3: the invitation decision cascade -/

/-- In dry-run mode an iteration can only skip or record a would-invite;
the resolution/creation branch is unreachable. -/
theorem inviteOne_dry (api : Api) (u : String) :
    inviteOne api true u = .skippedMember ∨ inviteOne api true u = .skippedPending ∨
      inviteOne api true u = .wouldInvite := by
  unfold inviteOne
  split
  · exact .inl rfl
  · split
    · exact .inr (.inl rfl)
    · exact .inr (.inr rfl)

/-- C3: the per-person decision follows exactly the specified order —
member-skip first (only for identifiers without `"@"`), then
pending-skip, then the dry-run would-invite (counted as a success, with
no mutating call issued), then resolution failure, then invitation
creation with success → invited and failure → failed; and the loop
processes persons strictly in (post-de-duplication) input order. -/
theorem C3_decision_cascade :
    (∀ (api : Api) (dry : Bool) (u : String),
      ((!(u.data.contains '@') && api.isMember u) = true →
        inviteOne api dry u = .skippedMember) ∧
      ((!(u.data.contains '@') && api.isMember u) = false → api.pending u = true →
        inviteOne api dry u = .skippedPending) ∧
      ((!(u.data.contains '@') && api.isMember u) = false → api.pending u = false →
        inviteOne api true u = .wouldInvite) ∧
      ((!(u.data.contains '@') && api.isMember u) = false → api.pending u = false →
        api.resolveUid u = none → inviteOne api false u = .cannotResolve) ∧
      (∀ uid, (!(u.data.contains '@') && api.isMember u) = false → api.pending u = false →
        api.resolveUid u = some uid → api.createOk uid = true →
        inviteOne api false u = .invited uid) ∧
      (∀ uid, (!(u.data.contains '@') && api.isMember u) = false → api.pending u = false →
        api.resolveUid u = some uid → api.createOk uid = false →
        inviteOne api false u = .inviteFailed uid)) ∧
    (∀ (oc : Remote) (dry : Bool) (st : OrgState) (us : List String),
      (inviteRun oc dry st us).outcomes.map Prod.fst = us) ∧
    (∀ (oc : Remote) (st : OrgState) (u : String), (inviteStep oc st true u).2.2 = []) ∧
    tally [.wouldInvite] = (1, 0, 0) := by
  refine ⟨?_, ?_, ?_, rfl⟩
  · intro api dry u
    refine ⟨fun h1 => by unfold inviteOne; rw [h1]; rfl,
      fun h1 h2 => by unfold inviteOne; rw [h1, h2]; rfl,
      fun h1 h2 => by unfold inviteOne; rw [h1, h2]; rfl,
      fun h1 h2 h3 => by unfold inviteOne; rw [h1, h2, h3]; rfl,
      fun uid h1 h2 h3 h4 => by
        unfold inviteOne; rw [h1, h2, h3]
        show (if api.createOk uid = true then IOutcome.invited uid
          else IOutcome.inviteFailed uid) = IOutcome.invited uid
        rw [h4]; rfl,
      fun uid h1 h2 h3 h4 => by
        unfold inviteOne; rw [h1, h2, h3]
        show (if api.createOk uid = true then IOutcome.invited uid
          else IOutcome.inviteFailed uid) = IOutcome.inviteFailed uid
        rw [h4]; rfl⟩
  · intro oc dry st us
    induction us generalizing st with
    | nil => rfl
    | cons u us ih => simp [inviteRun, ih]
  · intro oc st u
    rcases inviteOne_dry (apiOf oc st) u with h | h | h <;> simp [inviteStep, h]

/-- Witness for `C3_decision_cascade`: each branch of the cascade
exercised at a concrete environment. -/
theorem C3_decision_cascade_witness :
    inviteOne ⟨fun _ => true, fun _ => false, fun _ => none, fun _ => true⟩ false "bob" =
      .skippedMember ∧
    inviteOne ⟨fun _ => false, fun _ => true, fun _ => none, fun _ => true⟩ false "bob" =
      .skippedPending ∧
    inviteOne ⟨fun _ => false, fun _ => false, fun _ => none, fun _ => true⟩ true "bob" =
      .wouldInvite ∧
    inviteOne ⟨fun _ => false, fun _ => false, fun _ => none, fun _ => true⟩ false "bob" =
      .cannotResolve ∧
    inviteOne ⟨fun _ => false, fun _ => false, fun _ => some 7, fun _ => true⟩ false "bob" =
      .invited 7 ∧
    inviteOne ⟨fun _ => false, fun _ => false, fun _ => some 7, fun _ => false⟩ false "bob" =
      .inviteFailed 7 ∧
    (inviteRun .allOk false ⟨[], [], []⟩ ["a", "b"]).outcomes.map Prod.fst = ["a", "b"] :=
  ⟨(C3_decision_cascade.1 _ false "bob").1 (by decide),
    (C3_decision_cascade.1 _ false "bob").2.1 (by decide) rfl,
    (C3_decision_cascade.1 _ true "bob").2.2.1 (by decide) rfl,
    (C3_decision_cascade.1 _ false "bob").2.2.2.1 (by decide) rfl rfl,
    (C3_decision_cascade.1 _ false "bob").2.2.2.2.1 7 (by decide) rfl rfl rfl,
    (C3_decision_cascade.1 _ false "bob").2.2.2.2.2 7 (by decide) rfl rfl rfl,
    C3_decision_cascade.2.1 .allOk false ⟨[], [], []⟩ ["a", "b"]⟩

/-! ## Claim C5: dry-run issues no mutating call -/

/-- A dry-run iteration leaves the state alone and issues no call. -/
theorem inviteStep_dry (oc : Remote) (st : OrgState) (u : String) :
    inviteStep oc st true u = (inviteOne (apiOf oc st) true u, st, []) := by
  rcases inviteOne_dry (apiOf oc st) u with h | h | h <;> simp [inviteStep, h]

/-- The dry-run invitation loop: no calls, unchanged state, and only
skip / would-invite outcomes. -/
theorem inviteRun_dry (oc : Remote) : ∀ (us : List String) (st : OrgState),
    (inviteRun oc true st us).calls = [] ∧ (inviteRun oc true st us).state = st ∧
    ∀ p ∈ (inviteRun oc true st us).outcomes,
      p.2 = .skippedMember ∨ p.2 = .skippedPending ∨ p.2 = .wouldInvite := by
  intro us
  induction us with
  | nil =>
    intro st
    exact ⟨rfl, rfl, fun p hp => by cases hp⟩
  | cons u us ih =>
    intro st
    unfold inviteRun
    rw [inviteStep_dry]
    refine ⟨?_, (ih st).2.1, ?_⟩
    · show ([] : List ICall) ++ (inviteRun oc true st us).calls = []
      rw [(ih st).1]
      rfl
    · intro p hp
      rcases List.mem_cons.mp hp with hp | hp
      · subst hp
        exact inviteOne_dry (apiOf oc st) u
      · exact (ih st).2.2 p hp

/-- Folding a per-user action that never changes state and never calls
keeps the state and produces no calls. -/
theorem foldProc_inert {f : GState → String → GState × List TCall × List TEvent}
    (hf : ∀ st u, (f st u).1 = st ∧ (f st u).2.1 = []) :
    ∀ (us : List String) (st : GState),
      (foldProc f st us).1 = st ∧ (foldProc f st us).2.1 = [] := by
  intro us
  induction us with
  | nil => intro st; exact ⟨rfl, rfl⟩
  | cons u us ih =>
    intro st
    unfold foldProc
    constructor
    · show (foldProc f (f st u).1 us).1 = st
      rw [(hf st u).1]
      exact (ih st).1
    · show (f st u).2.1 ++ (foldProc f (f st u).1 us).2.1 = []
      rw [(hf st u).2, (hf st u).1, (ih st).2]
      rfl

/-- A dry instructor step is inert. -/
theorem procInstr_dry (oc : Remote) (slug : String) (st : GState) (u : String) :
    (procInstr oc true slug st u).1 = st ∧ (procInstr oc true slug st u).2.1 = [] := by
  cases h : team_membership st slug u with
  | none => simp [procInstr, h]
  | some r => cases r <;> simp [procInstr, h]

/-- A dry student step is inert. -/
theorem procStudent_dry (oc : Remote) (slug : String) (st : GState) (u : String) :
    (procStudent oc true slug st u).1 = st ∧ (procStudent oc true slug st u).2.1 = [] := by
  cases h : team_membership st slug u with
  | none => simp [procStudent, h]
  | some r => simp [procStudent, h]

/-- A dry group step is inert and never fatal. -/
theorem procGroup_dry (oc : Remote) (instr : List String) (st : GState)
    (gname : String) (ms : List String) :
    (procGroup oc true instr st gname ms).fatal = none ∧
    (procGroup oc true instr st gname ms).state = st ∧
    (procGroup oc true instr st gname ms).calls = [] := by
  have hi := foldProc_inert (procInstr_dry oc (slugify gname)) instr st
  have hs := foldProc_inert (procStudent_dry oc (slugify gname))
    ms (foldProc (procInstr oc true (slugify gname)) st instr).1
  cases h : team_exists st (slugify gname) with
  | true =>
    refine ⟨by simp [procGroup, h], ?_, ?_⟩
    · simp only [procGroup, h, if_pos]
      rw [hs.1, hi.1]
    · simp only [procGroup, h, if_pos]
      rw [hi.2, hs.2]
      rfl
  | false =>
    refine ⟨by simp [procGroup, h], ?_, ?_⟩
    · simp only [procGroup, h, Bool.false_eq_true, if_neg, not_false_iff, if_pos]
      rw [hs.1, hi.1]
    · simp only [procGroup, h, Bool.false_eq_true, if_neg, not_false_iff, if_pos]
      rw [hi.2, hs.2]
      rfl

/-- The dry team loop: never fatal, unchanged state, no calls. -/
theorem teamRun_dry (oc : Remote) (instr : List String) :
    ∀ (groups : List (String × List String)) (st : GState),
      (teamRun oc true instr st groups).fatal = none ∧
      (teamRun oc true instr st groups).state = st ∧
      (teamRun oc true instr st groups).calls = [] := by
  intro groups
  induction groups with
  | nil => intro st; exact ⟨rfl, rfl, rfl⟩
  | cons g rest ih =>
    intro st
    obtain ⟨hf, hst, hc⟩ := procGroup_dry oc instr st g.1 g.2
    simp only [teamRun]
    rw [hf]
    refine ⟨?_, ?_, ?_⟩
    · show (teamRun oc true instr (procGroup oc true instr st g.1 g.2).state rest).fatal = none
      rw [hst]
      exact (ih st).1
    · show (teamRun oc true instr (procGroup oc true instr st g.1 g.2).state rest).state = st
      rw [hst]
      exact (ih st).2.1
    · show (procGroup oc true instr st g.1 g.2).calls ++
        (teamRun oc true instr (procGroup oc true instr st g.1 g.2).state rest).calls = []
      rw [hc, hst, (ih st).2.2]
      rfl

/-- The fail counter ignores skip and would-invite outcomes. -/
theorem tally_no_fail : ∀ (os : List IOutcome) (t : Nat × Nat × Nat),
    (∀ o ∈ os, o = .skippedMember ∨ o = .skippedPending ∨ o = .wouldInvite) →
    (os.foldl
      (fun t o =>
        match o with
        | .wouldInvite | .invited _ => (t.1 + 1, t.2.1, t.2.2)
        | .skippedMember | .skippedPending => (t.1, t.2.1 + 1, t.2.2)
        | .cannotResolve | .inviteFailed _ => (t.1, t.2.1, t.2.2 + 1)) t).2.2 = t.2.2 := by
  intro os
  induction os with
  | nil => intro t _; rfl
  | cons o os ih =>
    intro t h
    rcases h o (List.mem_cons_self _ _) with ho | ho | ho <;> subst ho <;>
      exact ih _ (fun o hm => h o (List.mem_cons_of_mem _ hm))

/-- C5 counterexample: the claim quantifies over every input, but a
dry run on the empty roster `[]` still exits nonzero (the fatal
empty-roster condition precedes the dry-run logic), not with code 0. -/
theorem C5_counterexample :
    (mainGroups "[]" "i" true .allOk []).fatal = some (.load .emptyRoster) ∧
    mainInvite "[]" true .allOk ⟨[], [], []⟩ = .error .emptyRoster :=
  ⟨rfl, rfl⟩

/-- C5 (amended): with the dry-run flag set, neither workflow issues
any mutating remote call and neither changes the remote state; dry-run
invitations are never counted as failures; and — provided the roster
loads with at least one valid record — the run completes without a
fatal condition (exit code 0). -/
theorem C5_dry_run_frame :
    (∀ (oc : Remote) (st : OrgState) (us : List String),
      (inviteRun oc true st us).calls = [] ∧ (inviteRun oc true st us).state = st ∧
      (tally ((inviteRun oc true st us).outcomes.map Prod.snd)).2.2 = 0) ∧
    (∀ (oc : Remote) (instr : List String) (st : GState)
        (groups : List (String × List String)),
      (teamRun oc true instr st groups).fatal = none ∧
      (teamRun oc true instr st groups).state = st ∧
      (teamRun oc true instr st groups).calls = []) ∧
    (∀ raw i oc st rows, load_students_grp raw = .ok rows →
      (mainGroups raw i true oc st).fatal = none ∧
      (mainGroups raw i true oc st).calls = [] ∧
      (mainGroups raw i true oc st).state = st) ∧
    (∀ raw oc st rows, load_students_inv raw = .ok rows →
      mainInvite raw true oc st =
        .ok (inviteRun oc true st ((dedupStudents rows).map (fun r => r.username))) ∧
      (inviteRun oc true st ((dedupStudents rows).map (fun r => r.username))).calls = []) := by
  refine ⟨fun oc st us => ⟨(inviteRun_dry oc us st).1, (inviteRun_dry oc us st).2.1, ?_⟩,
    fun oc instr st groups => teamRun_dry oc instr groups st, ?_, ?_⟩
  · apply tally_no_fail
    intro o ho
    obtain ⟨p, hp, hpo⟩ := List.mem_map.mp ho
    rw [← hpo]
    exact (inviteRun_dry oc us st).2.2 p hp
  · intro raw i oc st rows h
    unfold mainGroups
    rw [h]
    exact ⟨(teamRun_dry oc _ _ st).1, (teamRun_dry oc _ _ st).2.2,
      (teamRun_dry oc _ _ st).2.1⟩
  · intro raw oc st rows h
    unfold mainInvite
    rw [h]
    exact ⟨rfl, (inviteRun_dry oc _ st).1⟩

/-- Witness for `C5_dry_run_frame`: instantiated on the scenario
roster, which loads successfully. -/
theorem C5_dry_run_frame_witness :
    (mainGroups rawScenario "i" true .allOk []).fatal = none ∧
    mainInvite rawScenario true .allOk ⟨[], [], []⟩ =
      .ok (inviteRun .allOk true ⟨[], [], []⟩
        ((dedupStudents [⟨"", "alice"⟩, ⟨"", "bob"⟩, ⟨"", "alice"⟩]).map
          (fun r => r.username))) :=
  ⟨(C5_dry_run_frame.2.2.1 rawScenario "i" .allOk []
      [⟨"", "alice", "A"⟩, ⟨"", "bob", "A"⟩, ⟨"", "alice", "A"⟩] rfl).1,
    (C5_dry_run_frame.2.2.2 rawScenario .allOk ⟨[], [], []⟩
      [⟨"", "alice"⟩, ⟨"", "bob"⟩, ⟨"", "alice"⟩] rfl).1⟩

/-! ## Claims C7 and C10: slugification -/

/-- The characters a slug may contain. -/
def slugChar (c : Char) : Bool := isLowerAl c || isDash c

/-- Canonical slug shape: only slug characters, no two adjacent
non-alphanumerics, and no separator at either end. -/
def SlugCanon (l : List Char) : Prop :=
  (∀ c ∈ l, slugChar c = true) ∧
  List.Chain' (fun a b => ¬(nonAl a = true ∧ nonAl b = true)) l ∧
  l.head? ≠ some '-' ∧ l.getLast? ≠ some '-'

theorem not_space_of_ge {c : Char} (h : '0' ≤ c) : isPySpace c = false := by
  rw [Bool.eq_false_iff]
  intro hs
  simp only [isPySpace, Bool.or_eq_true, beq_iff_eq, or_assoc] at hs
  rcases hs with h1 | h1 | h1 | h1 | h1 | h1 <;> subst h1 <;> exact absurd h (by decide)

theorem slugChar_not_space {c : Char} (h : slugChar c = true) : isPySpace c = false := by
  rcases (by simpa [slugChar, isLowerAl, isDash, or_assoc] using h :
      ('a' ≤ c ∧ c ≤ 'z') ∨ ('0' ≤ c ∧ c ≤ '9') ∨ c = '-') with ⟨h1, _⟩ | ⟨h1, _⟩ | h1
  · exact not_space_of_ge (le_trans (by decide) h1)
  · exact not_space_of_ge h1
  · subst h1
    decide

theorem pyLower_fix {c : Char} (h : slugChar c = true) : pyLower c = c := by
  rcases (by simpa [slugChar, isLowerAl, isDash, or_assoc] using h :
      ('a' ≤ c ∧ c ≤ 'z') ∨ ('0' ≤ c ∧ c ≤ '9') ∨ c = '-') with ⟨h1, h2⟩ | ⟨h1, h2⟩ | h1
  · have hfind : lowerPairs.find? (fun p => p.1 == c) = none := by
      rw [List.find?_eq_none]
      intro p hp hbeq
      have hxc : p.1 = c := beq_iff_eq.mp hbeq
      have hb : ∀ q ∈ lowerPairs, 'A' ≤ q.1 ∧ q.1 ≤ 'Z' := by decide
      have h3 := (hb p hp).2
      rw [hxc] at h3
      exact absurd (le_trans h1 h3) (by decide)
    unfold pyLower
    rw [hfind]
  · have hfind : lowerPairs.find? (fun p => p.1 == c) = none := by
      rw [List.find?_eq_none]
      intro p hp hbeq
      have hxc : p.1 = c := beq_iff_eq.mp hbeq
      have hb : ∀ q ∈ lowerPairs, 'A' ≤ q.1 ∧ q.1 ≤ 'Z' := by decide
      have h3 := (hb p hp).1
      rw [hxc] at h3
      exact absurd (le_trans h3 h2) (by decide)
    unfold pyLower
    rw [hfind]
  · subst h1
    decide

theorem collapseGo_nil (p : Char → Bool) (rep : Char) (b : Bool) :
    collapseGo p rep b [] = [] := rfl

theorem collapseGo_cons_pos_true {p : Char → Bool} {c : Char} (rep : Char)
    (rest : List Char) (hp : p c = true) :
    collapseGo p rep true (c :: rest) = collapseGo p rep true rest := by
  conv_lhs => unfold collapseGo
  rw [hp]

theorem collapseGo_cons_pos_false {p : Char → Bool} {c : Char} (rep : Char)
    (rest : List Char) (hp : p c = true) :
    collapseGo p rep false (c :: rest) = rep :: collapseGo p rep true rest := by
  conv_lhs => unfold collapseGo
  rw [hp]

theorem collapseGo_cons_neg {p : Char → Bool} {c : Char} (rep : Char)
    (rest : List Char) (b : Bool) (hp : p c = false) :
    collapseGo p rep b (c :: rest) = c :: collapseGo p rep false rest := by
  conv_lhs => unfold collapseGo
  rw [hp]

/-- The in-run state first skips the leading run. -/
theorem collapseGo_true (p : Char → Bool) (rep : Char) :
    ∀ l : List Char, collapseGo p rep true l = collapseGo p rep false (l.dropWhile p) := by
  intro l
  induction l with
  | nil => rfl
  | cons c rest ih =>
    cases hp : p c with
    | true => rw [collapseGo_cons_pos_true rep rest hp, List.dropWhile_cons_of_pos hp, ih]
    | false =>
      rw [collapseGo_cons_neg rep rest true hp, List.dropWhile_cons_of_neg (by simp [hp]),
        collapseGo_cons_neg rep rest false hp]

/-- Every output character is the replacement or an unreplaced input
character. -/
theorem collapseGo_mem {p : Char → Bool} {rep : Char} :
    ∀ (l : List Char) (b : Bool) (c : Char), c ∈ collapseGo p rep b l →
      c = rep ∨ (c ∈ l ∧ p c = false) := by
  intro l
  induction l with
  | nil => intro b c hc; cases hc
  | cons a rest ih =>
    intro b c hc
    cases hp : p a with
    | true =>
      cases b with
      | true =>
        rw [collapseGo_cons_pos_true rep rest hp] at hc
        rcases ih true c hc with h | ⟨hm, hpc⟩
        · exact .inl h
        · exact .inr ⟨List.mem_cons_of_mem _ hm, hpc⟩
      | false =>
        rw [collapseGo_cons_pos_false rep rest hp] at hc
        rcases List.mem_cons.mp hc with h | h
        · exact .inl h
        · rcases ih true c h with h2 | ⟨hm, hpc⟩
          · exact .inl h2
          · exact .inr ⟨List.mem_cons_of_mem _ hm, hpc⟩
    | false =>
      rw [collapseGo_cons_neg rep rest b hp] at hc
      rcases List.mem_cons.mp hc with h | h
      · subst h
        exact .inr ⟨List.mem_cons_self _ _, hp⟩
      · rcases ih false c h with h2 | ⟨hm, hpc⟩
        · exact .inl h2
        · exact .inr ⟨List.mem_cons_of_mem _ hm, hpc⟩

/-- The head produced from the out-of-run state on a list whose head
does not satisfy `p` never satisfies `p`. -/
theorem collapseGo_false_head {p : Char → Bool} {rep : Char} {l : List Char} {c : Char}
    (hl : ∀ d, l.head? = some d → p d = false)
    (h : (collapseGo p rep false l).head? = some c) : p c = false := by
  cases l with
  | nil => cases h
  | cons a rest =>
    have hpa := hl a rfl
    rw [collapseGo_cons_neg rep rest false hpa] at h
    cases h
    exact hpa

/-- The collapse output never holds two adjacent `p`-characters. -/
theorem collapseGo_chain {p : Char → Bool} {rep : Char} :
    ∀ (n : Nat) (l : List Char), l.length ≤ n →
      List.Chain' (fun a b => ¬(p a = true ∧ p b = true)) (collapseGo p rep false l) := by
  intro n
  induction n with
  | zero =>
    intro l hl
    have : l = [] := List.length_eq_zero.mp (Nat.le_zero.mp hl)
    subst this
    simp [collapseGo_nil]
  | succ n ih =>
    intro l hl
    cases l with
    | nil => simp [collapseGo_nil]
    | cons c rest =>
      have hrest : rest.length ≤ n := by
        simp only [List.length_cons] at hl
        omega
      cases hp : p c with
      | false =>
        rw [collapseGo_cons_neg rep rest false hp, List.chain'_cons']
        refine ⟨?_, ih rest hrest⟩
        intro y _
        rintro ⟨h1, _⟩
        rw [hp] at h1
        cases h1
      | true =>
        rw [collapseGo_cons_pos_false rep rest hp, collapseGo_true, List.chain'_cons']
        refine ⟨?_, ih (rest.dropWhile p)
          (le_trans (List.IsSuffix.length_le (List.dropWhile_suffix p)) hrest)⟩
        intro y hy
        have hpy : p y = false :=
          collapseGo_false_head (fun d hd => head?_dropWhile_ne hd) (Option.mem_def.mp hy)
        rintro ⟨_, h2⟩
        rw [hpy] at h2
        cases h2

/-- The collapse is the identity on lists whose `p`-characters are all
the replacement and never adjacent. -/
theorem collapseGo_fix {p : Char → Bool} {rep : Char} :
    ∀ l : List Char, (∀ c ∈ l, p c = true → c = rep) →
      List.Chain' (fun a b => ¬(p a = true ∧ p b = true)) l →
      collapseGo p rep false l = l := by
  intro l
  induction l with
  | nil => intro _ _; rfl
  | cons c rest ih =>
    intro hall hch
    have hch2 := (List.chain'_cons'.mp hch).2
    cases hp : p c with
    | false =>
      rw [collapseGo_cons_neg rep rest false hp,
        ih (fun d hd hpd => hall d (List.mem_cons_of_mem _ hd) hpd) hch2]
    | true =>
      have hc : c = rep := hall c (List.mem_cons_self _ _) hp
      rw [collapseGo_cons_pos_false rep rest hp]
      cases rest with
      | nil => rw [collapseGo_true]; simp [collapseGo_nil, hc]
      | cons d t =>
        have hrd := (List.chain'_cons'.mp hch).1 d (Option.mem_def.mpr rfl)
        have hpd : p d = false := by
          cases hq : p d with
          | false => rfl
          | true => exact absurd ⟨hp, hq⟩ hrd
        rw [collapseGo_true, List.dropWhile_cons_of_neg (by simp [hpd]),
          ih (fun e he hpe => hall e (List.mem_cons_of_mem _ he) hpe) hch2, hc]

theorem stripDashes_eq (l : List Char) :
    stripDashes l = List.rdropWhile isDash (l.dropWhile isDash) := rfl

theorem stripDashes_subset {l : List Char} {c : Char} (h : c ∈ stripDashes l) : c ∈ l := by
  rw [stripDashes_eq] at h
  exact List.IsSuffix.subset (List.dropWhile_suffix isDash)
    (List.IsPrefix.subset (List.rdropWhile_prefix isDash _) h)

theorem stripDashes_chain {R : Char → Char → Prop} {l : List Char}
    (h : List.Chain' R l) : List.Chain' R (stripDashes l) := by
  rw [stripDashes_eq]
  exact List.Chain'.prefix (List.Chain'.suffix h (List.dropWhile_suffix isDash))
    (List.rdropWhile_prefix isDash _)

theorem stripDashes_head {l : List Char} {c : Char}
    (h : (stripDashes l).head? = some c) : isDash c = false := by
  rw [stripDashes_eq] at h
  obtain ⟨t, ht⟩ := List.rdropWhile_prefix isDash (l.dropWhile isDash)
  have hh : (l.dropWhile isDash).head? = some c := by
    rw [← ht, List.head?_append, h]
    rfl
  exact head?_dropWhile_ne hh

theorem stripDashes_last {l : List Char} {c : Char}
    (h : (stripDashes l).getLast? = some c) : isDash c = false := by
  rw [stripDashes_eq] at h
  have hne : List.rdropWhile isDash (l.dropWhile isDash) ≠ [] := by
    intro he
    rw [he] at h
    cases h
  have hlast := List.rdropWhile_last_not isDash (l.dropWhile isDash) hne
  have hg : (List.rdropWhile isDash (l.dropWhile isDash)).getLast hne = c := by
    have := List.getLast?_eq_getLast _ hne
    rw [this] at h
    exact Option.some.inj h
  rw [hg] at hlast
  exact Bool.not_eq_true _ ▸ Bool.of_not_eq_true hlast

theorem dropWhile_eq_self_of_head {p : Char → Bool} {l : List Char}
    (h : ∀ c, l.head? = some c → p c = false) : l.dropWhile p = l := by
  cases l with
  | nil => rfl
  | cons a t => exact List.dropWhile_cons_of_neg (by simp [h a rfl])

theorem rdropWhile_eq_self_of_last {p : Char → Bool} {l : List Char}
    (h : ∀ c, l.getLast? = some c → p c = false) : List.rdropWhile p l = l := by
  rw [List.rdropWhile_eq_self_iff]
  intro hl
  have := h (l.getLast hl) (List.getLast?_eq_getLast l hl)
  simp [this]

theorem map_id_of_fix {f : Char → Char} :
    ∀ {l : List Char}, (∀ c ∈ l, f c = c) → l.map f = l := by
  intro l
  induction l with
  | nil => intro _; rfl
  | cons a t ih =>
    intro h
    rw [List.map_cons, h a (List.mem_cons_self _ _),
      ih (fun c hc => h c (List.mem_cons_of_mem _ hc))]

/-- Transfer the no-adjacent-non-alphanumerics chain to the
no-adjacent-dashes form needed for the second collapse. -/
theorem chain_nonAl_to_dash {l : List Char}
    (h : List.Chain' (fun a b => ¬(nonAl a = true ∧ nonAl b = true)) l) :
    List.Chain' (fun a b => ¬(isDash a = true ∧ isDash b = true)) l := by
  refine h.imp (fun a b hr => ?_)
  rintro ⟨ha, hb⟩
  have ha2 : a = '-' := beq_iff_eq.mp (by simpa [isDash] using ha)
  have hb2 : b = '-' := beq_iff_eq.mp (by simpa [isDash] using hb)
  subst ha2
  subst hb2
  exact hr ⟨by decide, by decide⟩

/-- The fallback literal is a canonical chain. -/
theorem chain'_team :
    List.Chain' (fun a b => ¬(nonAl a = true ∧ nonAl b = true)) ['t', 'e', 'a', 'm'] := by
  refine List.chain'_cons'.mpr ⟨fun y hy => ?_, List.chain'_cons'.mpr ⟨fun y hy => ?_,
    List.chain'_cons'.mpr ⟨fun y hy => ?_, List.chain'_singleton _⟩⟩⟩ <;>
    (cases Option.mem_def.mp hy; decide)

/-- The slug of any input is non-empty and canonical. -/
theorem slugifyL_canon (l : List Char) : slugifyL l ≠ [] ∧ SlugCanon (slugifyL l) := by
  have hmem2 : ∀ c ∈ collapseRuns nonAl '-' ((pyStrip l).map pyLower), slugChar c = true := by
    intro c hc
    rcases collapseGo_mem _ false c hc with h | ⟨_, hpc⟩
    · subst h
      decide
    · have : isLowerAl c = true := by simpa [nonAl] using hpc
      simp [slugChar, this]
  have hch2 : List.Chain' (fun a b => ¬(nonAl a = true ∧ nonAl b = true))
      (collapseRuns nonAl '-' ((pyStrip l).map pyLower)) :=
    collapseGo_chain _ _ le_rfl
  have h3 : collapseRuns isDash '-' (collapseRuns nonAl '-' ((pyStrip l).map pyLower)) =
      collapseRuns nonAl '-' ((pyStrip l).map pyLower) :=
    collapseGo_fix _ (fun c _ hd => beq_iff_eq.mp (by simpa [isDash] using hd))
      (chain_nonAl_to_dash hch2)
  have hstep : slugifyL l =
      if (stripDashes (collapseRuns nonAl '-' ((pyStrip l).map pyLower))).isEmpty
      then ['t', 'e', 'a', 'm']
      else stripDashes (collapseRuns nonAl '-' ((pyStrip l).map pyLower)) := by
    simp only [slugifyL]
    rw [h3]
  rw [hstep]
  cases he : (stripDashes (collapseRuns nonAl '-' ((pyStrip l).map pyLower))).isEmpty with
  | true =>
    simp only [if_pos]
    refine ⟨by decide, ?_⟩
    unfold SlugCanon
    exact ⟨by decide, chain'_team, by decide, by decide⟩
  | false =>
    simp only [Bool.false_eq_true, if_neg, not_false_iff]
    refine ⟨fun hnil => by (rw [hnil] at he; cases he), ?_⟩
    unfold SlugCanon
    refine ⟨?_, ?_, ?_, ?_⟩
    · exact fun c hc => hmem2 c (stripDashes_subset hc)
    · exact stripDashes_chain hch2
    · intro hh
      have := stripDashes_head hh
      simp [isDash] at this
    · intro hh
      have := stripDashes_last hh
      simp [isDash] at this

/-- Slugification is the identity on non-empty canonical slugs. -/
theorem slugifyL_fix {m : List Char} (hm : m ≠ []) (hcanon : SlugCanon m) :
    slugifyL m = m := by
  obtain ⟨hall, hch, hhead, hlast⟩ := hcanon
  have hsl : pyStripL m = m :=
    dropWhile_eq_self_of_head
      (fun c hc => slugChar_not_space (hall c (List.mem_of_mem_head? (Option.mem_def.mpr hc))))
  have hsr : pyStripR m = m := by
    unfold pyStripR
    rw [dropWhile_eq_self_of_head (fun c hc => ?_), List.reverse_reverse]
    have hcm : c ∈ m :=
      List.mem_reverse.mp (List.mem_of_mem_head? (Option.mem_def.mpr hc))
    exact slugChar_not_space (hall c hcm)
  have hps : pyStrip m = m := by
    unfold pyStrip
    rw [hsl, hsr]
  have hmap : m.map pyLower = m :=
    map_id_of_fix (fun c hc => pyLower_fix (hall c hc))
  have hc1 : collapseRuns nonAl '-' m = m := by
    refine collapseGo_fix m (fun c hc hd => ?_) hch
    have := hall c hc
    rcases Bool.or_eq_true_iff.mp (by simpa [slugChar] using this) with h | h
    · rw [nonAl, h] at hd
      cases hd
    · exact beq_iff_eq.mp (by simpa [isDash] using h)
  have hc2 : collapseRuns isDash '-' m = m :=
    collapseGo_fix m (fun c _ hd => beq_iff_eq.mp (by simpa [isDash] using hd))
      (chain_nonAl_to_dash hch)
  have hsd : stripDashes m = m := by
    rw [stripDashes_eq,
      dropWhile_eq_self_of_head (fun c hc => ?_),
      rdropWhile_eq_self_of_last (fun c hc => ?_)]
    · rw [isDash, beq_eq_false_iff_ne]
      intro he
      exact hlast (he ▸ hc)
    · rw [isDash, beq_eq_false_iff_ne]
      intro he
      exact hhead (he ▸ hc)
  have hne : m.isEmpty = false := by
    cases m with
    | nil => exact absurd rfl hm
    | cons a t => rfl
  simp only [slugifyL]
  rw [hps, hmap, hc1, hc2, hsd, hne]
  rfl

/-- C10: for every input string the slug is non-empty, consists only of
lowercase ASCII letters, digits and the separator `"-"`, and has no
leading, trailing, or doubled separator — a well-formed identifier for
the team API paths of the workflow. -/
theorem C10_slug_wellformed (s : String) :
    slugify s ≠ "" ∧
    (∀ c ∈ (slugify s).data, (isLowerAl c || c == '-') = true) ∧
    List.Chain' (fun a b => ¬(a = '-' ∧ b = '-')) (slugify s).data ∧
    (slugify s).data.head? ≠ some '-' ∧
    (slugify s).data.getLast? ≠ some '-' := by
  obtain ⟨hne, hall, hch, hh, hl⟩ := slugifyL_canon s.data
  have hdata : (slugify s).data = slugifyL s.data := rfl
  refine ⟨?_, ?_, ?_, ?_, ?_⟩
  · intro h
    exact hne (by rw [← hdata, h])
  · intro c hc
    have := hall c (by rw [← hdata]; exact hc)
    simpa [slugChar, isDash] using this
  · rw [hdata]
    refine hch.imp (fun a b hr => ?_)
    rintro ⟨rfl, rfl⟩
    exact hr ⟨by decide, by decide⟩
  · rw [hdata]; exact hh
  · rw [hdata]; exact hl

/-- Witness for `C10_slug_wellformed`: evaluated on a concrete input. -/
theorem C10_slug_wellformed_witness :
    slugify " Hello,  World! " ≠ "" ∧
    (∀ c ∈ (slugify " Hello,  World! ").data, (isLowerAl c || c == '-') = true) ∧
    (slugify " Hello,  World! ").data.head? ≠ some '-' :=
  ⟨(C10_slug_wellformed " Hello,  World! ").1,
    (C10_slug_wellformed " Hello,  World! ").2.1,
    (C10_slug_wellformed " Hello,  World! ").2.2.2.1⟩

/-- Map a character function over a string. -/
def mapStr (f : Char → Char) (s : String) : String := ⟨s.data.map f⟩

theorem pyUpper_cases (c : Char) :
    pyUpper c = c ∨ ∃ pr ∈ lowerPairs, pr.2 = c ∧ pyUpper c = pr.1 := by
  unfold pyUpper
  cases hf : lowerPairs.find? (fun p => p.2 == c) with
  | none => exact .inl rfl
  | some pr =>
    have hp := List.find?_some hf
    exact .inr ⟨pr, List.mem_of_find?_eq_some hf, beq_iff_eq.mp hp, rfl⟩

theorem isPySpace_pyUpper (c : Char) : isPySpace (pyUpper c) = isPySpace c := by
  rcases pyUpper_cases c with h | ⟨pr, hm, hc, hu⟩
  · rw [h]
  · have hb : ('A' ≤ pr.1 ∧ pr.1 ≤ 'Z') ∧ ('a' ≤ pr.2 ∧ pr.2 ≤ 'z') := by
      have hall : ∀ q ∈ lowerPairs, ('A' ≤ q.1 ∧ q.1 ≤ 'Z') ∧ ('a' ≤ q.2 ∧ q.2 ≤ 'z') := by
        decide
      exact hall pr hm
    rw [hu, not_space_of_ge (le_trans (by decide) hb.1.1), ← hc,
      not_space_of_ge (le_trans (by decide) hb.2.1)]

theorem pyLower_pyUpper (c : Char) : pyLower (pyUpper c) = pyLower c := by
  rcases pyUpper_cases c with h | ⟨pr, hm, hc, hu⟩
  · rw [h]
  · rw [hu]
    have hfp : lowerPairs.find? (fun p => p.1 == pr.1) = some pr := by
      have hall : ∀ q ∈ lowerPairs, lowerPairs.find? (fun p => p.1 == q.1) = some q := by
        decide
      exact hall pr hm
    have h1 : pyLower pr.1 = pr.2 := by
      unfold pyLower
      rw [hfp]
    have hlow : 'a' ≤ c ∧ c ≤ 'z' := by
      have hall : ∀ q ∈ lowerPairs, 'a' ≤ q.2 ∧ q.2 ≤ 'z' := by decide
      rw [← hc]
      exact hall pr hm
    have h2 : pyLower c = c :=
      pyLower_fix (by simp [slugChar, isLowerAl, isDash, or_assoc]; exact .inl hlow)
    rw [h1, h2, hc]

theorem pyStrip_map_pyUpper (l : List Char) :
    pyStrip (l.map pyUpper) = (pyStrip l).map pyUpper := by
  have hcomp : isPySpace ∘ pyUpper = isPySpace := funext isPySpace_pyUpper
  unfold pyStrip pyStripL pyStripR
  rw [List.dropWhile_map, hcomp, ← List.map_reverse, List.dropWhile_map, hcomp,
    ← List.map_reverse]

theorem slugifyL_map_pyUpper (l : List Char) :
    slugifyL (l.map pyUpper) = slugifyL l := by
  have h1 : (pyStrip (l.map pyUpper)).map pyLower = (pyStrip l).map pyLower := by
    have hcomp : pyLower ∘ pyUpper = pyLower := funext pyLower_pyUpper
    rw [pyStrip_map_pyUpper, List.map_map, hcomp]
  simp only [slugifyL]
  rw [h1]

/-- C7: slugification is deterministic (a pure function of its input)
and idempotent — `slugify (slugify x) = slugify x` for every string —
and inputs differing only by ASCII case map to the same slug; a
punctuation-only difference also collapses, as in the concrete pair
below. -/
theorem C7_slugify_idempotent :
    (∀ s : String, slugify (slugify s) = slugify s) ∧
    (∀ s : String, slugify (mapStr pyUpper s) = slugify s) ∧
    slugify "Team Alpha!" = slugify "team.alpha" := by
  refine ⟨?_, ?_, rfl⟩
  · intro s
    obtain ⟨hne, hcanon⟩ := slugifyL_canon s.data
    show (⟨slugifyL (slugifyL s.data)⟩ : String) = ⟨slugifyL s.data⟩
    rw [slugifyL_fix hne hcanon]
  · intro s
    show (⟨slugifyL (s.data.map pyUpper)⟩ : String) = ⟨slugifyL s.data⟩
    rw [slugifyL_map_pyUpper]

/-! ## Team-state lemmas (shared by claims C6 and C1) -/

/-- The membership-role lookup inside one team. -/
def lookupRole (ro : List (String × Role)) (u : String) : Option Role :=
  (ro.find? (fun m => m.1 == u)).map (fun m => m.2)

theorem team_membership_eq (st : GState) (s u : String) :
    team_membership st s u =
      match st.find? (fun t => t.slug == s) with
      | none => none
      | some t => lookupRole t.roster u := rfl

theorem lookupRole_setMem (u2 u : String) (r : Role) :
    ∀ ro : List (String × Role),
      lookupRole (setMem ro u2 r) u =
        if u2 == u then some r else lookupRole ro u := by
  intro ro
  induction ro with
  | nil =>
    by_cases hu : u2 = u
    · subst hu
      simp [setMem, lookupRole]
    · have hb : (u2 == u) = false := beq_eq_false_iff_ne.mpr hu
      simp [setMem, lookupRole, List.find?, hb]
  | cons m rest ih =>
    obtain ⟨v, r0⟩ := m
    by_cases hv : v = u2
    · subst hv
      have hset : setMem ((v, r0) :: rest) v r = (v, r) :: rest := by
        simp [setMem]
      rw [hset]
      by_cases hu : v = u
      · subst hu
        simp [lookupRole, List.find?]
      · have hb : (v == u) = false := beq_eq_false_iff_ne.mpr hu
        simp [lookupRole, List.find?, hb]
    · have hset : setMem ((v, r0) :: rest) u2 r = (v, r0) :: setMem rest u2 r := by
        have hb : (v == u2) = false := beq_eq_false_iff_ne.mpr hv
        simp [setMem, hb]
      rw [hset]
      by_cases hu2 : v = u
      · subst hu2
        have hvu : (u2 == v) = false := by
          rw [beq_eq_false_iff_ne]
          exact fun h => hv h.symm
        simp [lookupRole, List.find?, hvu]
      · have hb : (v == u) = false := beq_eq_false_iff_ne.mpr hu2
        have h1 : lookupRole ((v, r0) :: setMem rest u2 r) u =
            lookupRole (setMem rest u2 r) u := by
          simp [lookupRole, List.find?, hb]
        have h2 : lookupRole ((v, r0) :: rest) u = lookupRole rest u := by
          simp [lookupRole, List.find?, hb]
        rw [h1, h2, ih]

/-- `add_to_team` transforms the first matching team pointwise. -/
theorem find?_slug_add (st : GState) (s2 u : String) (r : Role) (s : String) :
    (add_to_team st s2 u r).find? (fun t => t.slug == s) =
      (st.find? (fun t => t.slug == s)).map
        (fun t => if t.slug == s2 then { t with roster := setMem t.roster u r } else t) := by
  unfold add_to_team
  rw [List.find?_map]
  have hcomp : ((fun t : Team => t.slug == s) ∘
      (fun t => if t.slug == s2 then { t with roster := setMem t.roster u r } else t)) =
      (fun t : Team => t.slug == s) := by
    funext t
    show ((if t.slug == s2 then { t with roster := setMem t.roster u r } else t).slug == s)
      = (t.slug == s)
    by_cases h : t.slug == s2
    · rw [if_pos h]
    · rw [if_neg h]
  rw [hcomp]

theorem team_exists_add (st : GState) (s2 u : String) (r : Role) (s : String) :
    team_exists (add_to_team st s2 u r) s = team_exists st s := by
  unfold team_exists add_to_team
  rw [List.any_map]
  have hcomp : ((fun t : Team => t.slug == s) ∘
      (fun t => if t.slug == s2 then { t with roster := setMem t.roster u r } else t)) =
      (fun t : Team => t.slug == s) := by
    funext t
    show ((if t.slug == s2 then { t with roster := setMem t.roster u r } else t).slug == s)
      = (t.slug == s)
    by_cases h : t.slug == s2
    · rw [if_pos h]
    · rw [if_neg h]
  rw [hcomp]

/-- Full description of a membership read after a successful PUT. -/
theorem team_membership_add (st : GState) (s2 u2 : String) (r : Role) (s u : String) :
    team_membership (add_to_team st s2 u2 r) s u =
      match st.find? (fun t => t.slug == s) with
      | none => none
      | some t =>
        if s == s2 then (if u2 == u then some r else lookupRole t.roster u)
        else lookupRole t.roster u := by
  rw [team_membership_eq, find?_slug_add]
  cases hf : st.find? (fun t => t.slug == s) with
  | none => rfl
  | some t =>
    have hp := List.find?_some hf
    have hts : t.slug = s := beq_iff_eq.mp hp
    show lookupRole
        (if t.slug == s2 then { t with roster := setMem t.roster u2 r } else t).roster u =
      (if s == s2 then (if u2 == u then some r else lookupRole t.roster u)
       else lookupRole t.roster u)
    by_cases hts2 : t.slug == s2
    · have hss2 : (s == s2) = true := by
        rw [← hts]
        exact hts2
      rw [if_pos hts2, if_pos hss2]
      exact lookupRole_setMem u2 u r t.roster
    · have hss2 : ¬((s == s2) = true) := by
        rw [← hts]
        exact hts2
      rw [if_neg hts2, if_neg hss2]

theorem team_exists_create (st : GState) (n s : String) :
    team_exists (create_team st n) s = (team_exists st s || (slugify n == s)) := by
  unfold team_exists create_team
  rw [List.any_append]
  simp [List.any_cons, List.any_nil]

/-- A team that already exists is unaffected by creating another. -/
theorem team_membership_create {st : GState} {s : String} (n : String) (u : String)
    (hex : team_exists st s = true) :
    team_membership (create_team st n) s u = team_membership st s u := by
  rw [team_membership_eq, team_membership_eq]
  unfold create_team
  rw [List.find?_append]
  cases hf : st.find? (fun t => t.slug == s) with
  | none =>
    rw [List.find?_eq_none] at hf
    unfold team_exists at hex
    rw [List.any_eq_true] at hex
    obtain ⟨t, ht, hp⟩ := hex
    exact absurd hp (hf t ht)
  | some t => rfl

theorem exists_of_membership {st : GState} {s u : String} {r : Role}
    (h : team_membership st s u = some r) : team_exists st s = true := by
  rw [team_membership_eq] at h
  cases hf : st.find? (fun t => t.slug == s) with
  | none => rw [hf] at h; cases h
  | some t =>
    unfold team_exists
    rw [List.any_eq_true]
    have hp := List.find?_some hf
    exact ⟨t, List.mem_of_find?_eq_some hf, hp⟩

/-- Membership read of the team just written, when it exists. -/
theorem team_membership_add_self {st : GState} {s : String} (u2 : String) (r : Role)
    (hex : team_exists st s = true) :
    team_membership (add_to_team st s u2 r) s u2 = some r := by
  rw [team_membership_add]
  cases hf : st.find? (fun t => t.slug == s) with
  | none =>
    rw [List.find?_eq_none] at hf
    unfold team_exists at hex
    rw [List.any_eq_true] at hex
    obtain ⟨t, ht, hp⟩ := hex
    exact absurd hp (hf t ht)
  | some t =>
    show (if s == s then (if u2 == u2 then some r else _) else _) = some r
    rw [if_pos (by simp), if_pos (by simp)]

/-- A membership read is unaffected by a PUT for a different target. -/
theorem team_membership_add_other {st : GState} {s2 u2 s u : String} {r : Role}
    (hne : ¬(s = s2 ∧ u = u2)) :
    team_membership (add_to_team st s2 u2 r) s u = team_membership st s u := by
  rw [team_membership_add, team_membership_eq]
  cases hf : st.find? (fun t => t.slug == s) with
  | none => rfl
  | some t =>
    show (if s == s2 then (if u2 == u then some r else lookupRole t.roster u)
      else lookupRole t.roster u) = lookupRole t.roster u
    by_cases hs : (s == s2)
    · rw [if_pos hs]
      have hseq : s = s2 := beq_iff_eq.mp hs
      have hu : ¬(u = u2) := fun hu => hne ⟨hseq, hu⟩
      have hb : (u2 == u) = false := beq_eq_false_iff_ne.mpr (fun h => hu h.symm)
      rw [if_neg (by simp [hb])]
    · rw [if_neg hs]

/-- Either an instructor step skips (no call, unchanged state), or the
queried role was not maintainer and the step issues exactly one
maintainer PUT for that instructor. -/
theorem procInstr_shape (oc : Remote) (dry : Bool) (slug : String) (st : GState) (u : String) :
    ((procInstr oc dry slug st u).1 = st ∧ (procInstr oc dry slug st u).2.1 = []) ∨
    (team_membership st slug u ≠ some .maintainer ∧
      ((procInstr oc dry slug st u).1 = st ∨
        (procInstr oc dry slug st u).1 = add_to_team st slug u .maintainer) ∧
      (procInstr oc dry slug st u).2.1 = [.putMembership slug u .maintainer]) := by
  unfold procInstr
  cases hr : team_membership st slug u with
  | some r =>
    cases r with
    | maintainer => exact .inl ⟨rfl, rfl⟩
    | member =>
      cases dry with
      | true => exact .inl ⟨rfl, rfl⟩
      | false =>
        refine .inr ⟨by simp, ?_, rfl⟩
        by_cases hok : oc.putOk slug u
        · exact .inr (by show (if oc.putOk slug u then _ else _, _, _).1 = _; rw [if_pos hok])
        · exact .inl (by show (if oc.putOk slug u then _ else _, _, _).1 = _; rw [if_neg hok])
  | none =>
    cases dry with
    | true => exact .inl ⟨rfl, rfl⟩
    | false =>
      refine .inr ⟨by simp, ?_, rfl⟩
      by_cases hok : oc.putOk slug u
      · exact .inr (by show (if oc.putOk slug u then _ else _, _, _).1 = _; rw [if_pos hok])
      · exact .inl (by show (if oc.putOk slug u then _ else _, _, _).1 = _; rw [if_neg hok])

/-- Either a student step skips, or the member was absent and the step
issues exactly one member PUT. -/
theorem procStudent_shape (oc : Remote) (dry : Bool) (slug : String) (st : GState) (u : String) :
    ((procStudent oc dry slug st u).1 = st ∧ (procStudent oc dry slug st u).2.1 = []) ∨
    (team_membership st slug u = none ∧
      ((procStudent oc dry slug st u).1 = st ∨
        (procStudent oc dry slug st u).1 = add_to_team st slug u .member) ∧
      (procStudent oc dry slug st u).2.1 = [.putMembership slug u .member]) := by
  unfold procStudent
  cases hr : team_membership st slug u with
  | some r => exact .inl ⟨rfl, rfl⟩
  | none =>
    cases dry with
    | true => exact .inl ⟨rfl, rfl⟩
    | false =>
      refine .inr ⟨rfl, ?_, rfl⟩
      by_cases hok : oc.putOk slug u
      · exact .inr (by show (if oc.putOk slug u then _ else _, _, _).1 = _; rw [if_pos hok])
      · exact .inl (by show (if oc.putOk slug u then _ else _, _, _).1 = _; rw [if_neg hok])

/-- Monotone evolution of the team state: existing teams keep existing,
maintainers stay maintainers, present members stay present. -/
def gmono (st st2 : GState) : Prop :=
  (∀ s, team_exists st s = true → team_exists st2 s = true) ∧
  (∀ s u, team_membership st s u = some .maintainer →
    team_membership st2 s u = some .maintainer) ∧
  (∀ s u r, team_membership st s u = some r → ∃ r2, team_membership st2 s u = some r2)

theorem gmono_refl (st : GState) : gmono st st :=
  ⟨fun _ h => h, fun _ _ h => h, fun _ _ r h => ⟨r, h⟩⟩

theorem gmono_trans {a b c : GState} (h1 : gmono a b) (h2 : gmono b c) : gmono a c :=
  ⟨fun s h => h2.1 s (h1.1 s h),
   fun s u h => h2.2.1 s u (h1.2.1 s u h),
   fun s u r h => by
     obtain ⟨r2, hr2⟩ := h1.2.2 s u r h
     exact h2.2.2 s u r2 hr2⟩

theorem gmono_add_maint (st : GState) (s2 u2 : String) :
    gmono st (add_to_team st s2 u2 .maintainer) := by
  refine ⟨fun s h => by rw [team_exists_add]; exact h, ?_, ?_⟩
  · intro s u h
    by_cases hmatch : s = s2 ∧ u = u2
    · obtain ⟨hs, hu⟩ := hmatch
      subst hs
      subst hu
      exact team_membership_add_self u .maintainer (exists_of_membership h)
    · rw [team_membership_add_other hmatch]
      exact h
  · intro s u r h
    by_cases hmatch : s = s2 ∧ u = u2
    · obtain ⟨hs, hu⟩ := hmatch
      subst hs
      subst hu
      exact ⟨.maintainer, team_membership_add_self u .maintainer (exists_of_membership h)⟩
    · rw [team_membership_add_other hmatch]
      exact ⟨r, h⟩

theorem gmono_add_member (st : GState) (s2 u2 : String)
    (hnm : team_membership st s2 u2 = none) :
    gmono st (add_to_team st s2 u2 .member) := by
  refine ⟨fun s h => by rw [team_exists_add]; exact h, ?_, ?_⟩
  · intro s u h
    by_cases hmatch : s = s2 ∧ u = u2
    · obtain ⟨hs, hu⟩ := hmatch
      subst hs
      subst hu
      rw [hnm] at h
      cases h
    · rw [team_membership_add_other hmatch]
      exact h
  · intro s u r h
    by_cases hmatch : s = s2 ∧ u = u2
    · obtain ⟨hs, hu⟩ := hmatch
      subst hs
      subst hu
      exact ⟨.member, team_membership_add_self u .member (exists_of_membership h)⟩
    · rw [team_membership_add_other hmatch]
      exact ⟨r, h⟩

theorem gmono_create (st : GState) (n : String) : gmono st (create_team st n) := by
  refine ⟨fun s h => by rw [team_exists_create, h]; rfl, ?_, ?_⟩
  · intro s u h
    rw [team_membership_create n u (exists_of_membership h)]
    exact h
  · intro s u r h
    rw [team_membership_create n u (exists_of_membership h)]
    exact ⟨r, h⟩

theorem procInstr_mono (oc : Remote) (dry : Bool) (slug : String) (st : GState) (u : String) :
    gmono st (procInstr oc dry slug st u).1 := by
  rcases procInstr_shape oc dry slug st u with ⟨h1, _⟩ | ⟨_, h1 | h1, _⟩ <;> rw [h1]
  · exact gmono_refl st
  · exact gmono_refl st
  · exact gmono_add_maint st slug u

theorem procStudent_mono (oc : Remote) (dry : Bool) (slug : String) (st : GState) (u : String) :
    gmono st (procStudent oc dry slug st u).1 := by
  rcases procStudent_shape oc dry slug st u with ⟨h1, _⟩ | ⟨hnone, h1 | h1, _⟩ <;> rw [h1]
  · exact gmono_refl st
  · exact gmono_refl st
  · exact gmono_add_member st slug u hnone

theorem foldProc_mono {f : GState → String → GState × List TCall × List TEvent}
    (hf : ∀ st u, gmono st (f st u).1) :
    ∀ (us : List String) (st : GState), gmono st (foldProc f st us).1 := by
  intro us
  induction us with
  | nil => intro st; exact gmono_refl st
  | cons u us ih =>
    intro st
    show gmono st (foldProc f (f st u).1 us).1
    exact gmono_trans (hf st u) (ih (f st u).1)

/-- Branch equation: the team already exists. -/
theorem procGroup_eq_exists (oc : Remote) (dry : Bool) (instr : List String) (st : GState)
    (g : String) (ms : List String) (hex : team_exists st (slugify g) = true) :
    procGroup oc dry instr st g ms =
      ⟨none,
       (foldProc (procStudent oc dry (slugify g))
         (foldProc (procInstr oc dry (slugify g)) st instr).1 ms).1,
       (foldProc (procInstr oc dry (slugify g)) st instr).2.1 ++
         (foldProc (procStudent oc dry (slugify g))
           (foldProc (procInstr oc dry (slugify g)) st instr).1 ms).2.1,
       TEvent.teamAlready (slugify g) ::
         ((foldProc (procInstr oc dry (slugify g)) st instr).2.2 ++
          (foldProc (procStudent oc dry (slugify g))
            (foldProc (procInstr oc dry (slugify g)) st instr).1 ms).2.2)⟩ := by
  simp only [procGroup, hex, if_pos]

/-- Branch equation: absent team in dry-run mode. -/
theorem procGroup_eq_dry (oc : Remote) (instr : List String) (st : GState)
    (g : String) (ms : List String) (hex : team_exists st (slugify g) = false) :
    procGroup oc true instr st g ms =
      ⟨none,
       (foldProc (procStudent oc true (slugify g))
         (foldProc (procInstr oc true (slugify g)) st instr).1 ms).1,
       (foldProc (procInstr oc true (slugify g)) st instr).2.1 ++
         (foldProc (procStudent oc true (slugify g))
           (foldProc (procInstr oc true (slugify g)) st instr).1 ms).2.1,
       TEvent.wouldCreate (slugify g) ::
         ((foldProc (procInstr oc true (slugify g)) st instr).2.2 ++
          (foldProc (procStudent oc true (slugify g))
            (foldProc (procInstr oc true (slugify g)) st instr).1 ms).2.2)⟩ := by
  simp only [procGroup, hex, Bool.false_eq_true, if_neg, not_false_iff, if_pos]

/-- Branch equation: absent team, live mode, creation succeeds. -/
theorem procGroup_eq_create (oc : Remote) (instr : List String) (st : GState)
    (g : String) (ms : List String) (hex : team_exists st (slugify g) = false)
    (hok : oc.createTeamOk g = true) :
    procGroup oc false instr st g ms =
      ⟨none,
       (foldProc (procStudent oc false (slugify g))
         (foldProc (procInstr oc false (slugify g)) (create_team st g) instr).1 ms).1,
       TCall.createTeam g ::
         ((foldProc (procInstr oc false (slugify g)) (create_team st g) instr).2.1 ++
          (foldProc (procStudent oc false (slugify g))
            (foldProc (procInstr oc false (slugify g)) (create_team st g) instr).1 ms).2.1),
       TEvent.createdTeam (slugify g) ::
         ((foldProc (procInstr oc false (slugify g)) (create_team st g) instr).2.2 ++
          (foldProc (procStudent oc false (slugify g))
            (foldProc (procInstr oc false (slugify g)) (create_team st g) instr).1 ms).2.2)⟩ := by
  simp only [procGroup, hex, hok, Bool.false_eq_true, if_neg, not_false_iff, if_pos]

/-- Branch equation: absent team, live mode, creation fails fatally. -/
theorem procGroup_eq_fail (oc : Remote) (instr : List String) (st : GState)
    (g : String) (ms : List String) (hex : team_exists st (slugify g) = false)
    (hok : oc.createTeamOk g = false) :
    procGroup oc false instr st g ms =
      ⟨some (.createTeamFailed g), st, [.createTeam g], []⟩ := by
  simp only [procGroup, hex, hok, Bool.false_eq_true, if_neg, not_false_iff, if_pos]

theorem procGroup_mono (oc : Remote) (dry : Bool) (instr : List String) (st : GState)
    (g : String) (ms : List String) :
    gmono st (procGroup oc dry instr st g ms).state := by
  have hfold : ∀ st2 : GState,
      gmono st2 (foldProc (procStudent oc dry (slugify g))
        (foldProc (procInstr oc dry (slugify g)) st2 instr).1 ms).1 := fun st2 =>
    gmono_trans (foldProc_mono (procInstr_mono oc dry _) instr st2)
      (foldProc_mono (procStudent_mono oc dry _) ms _)
  by_cases hex : team_exists st (slugify g) = true
  · rw [procGroup_eq_exists oc dry instr st g ms hex]
    exact hfold st
  · have hex2 : team_exists st (slugify g) = false := by
      cases h2 : team_exists st (slugify g)
      · rfl
      · exact absurd h2 hex
    cases dry with
    | true =>
      rw [procGroup_eq_dry oc instr st g ms hex2]
      exact hfold st
    | false =>
      by_cases hok : oc.createTeamOk g = true
      · rw [procGroup_eq_create oc instr st g ms hex2 hok]
        exact gmono_trans (gmono_create st g) (hfold (create_team st g))
      · have hok2 : oc.createTeamOk g = false := by
          cases h2 : oc.createTeamOk g
          · rfl
          · exact absurd h2 hok
        rw [procGroup_eq_fail oc instr st g ms hex2 hok2]
        exact gmono_refl st

theorem teamRun_mono (oc : Remote) (dry : Bool) (instr : List String) :
    ∀ (groups : List (String × List String)) (st : GState),
      gmono st (teamRun oc dry instr st groups).state := by
  intro groups
  induction groups with
  | nil => intro st; exact gmono_refl st
  | cons g rest ih =>
    obtain ⟨gn, ms⟩ := g
    intro st
    simp only [teamRun]
    cases hfa : (procGroup oc dry instr st gn ms).fatal with
    | some f => exact procGroup_mono oc dry instr st gn ms
    | none =>
      exact gmono_trans (procGroup_mono oc dry instr st gn ms)
        (ih (procGroup oc dry instr st gn ms).state)

/-! ## Claim C6: an existing maintainer is never written to -/

/-- One instructor step never writes to a pair that is already
maintainer, and preserves that maintainership. -/
theorem procInstr_keepM {oc : Remote} {dry : Bool} {slug : String} {st : GState}
    {u2 s u : String} (h : team_membership st s u = some .maintainer) :
    (∀ c ∈ (procInstr oc dry slug st u2).2.1, ∀ r2, c ≠ .putMembership s u r2) ∧
    team_membership (procInstr oc dry slug st u2).1 s u = some .maintainer := by
  refine ⟨?_, (procInstr_mono oc dry slug st u2).2.1 s u h⟩
  rcases procInstr_shape oc dry slug st u2 with ⟨_, hc⟩ | ⟨hnm, _, hc⟩
  · rw [hc]
    intro c hcm
    cases hcm
  · rw [hc]
    intro c hcm r2
    rcases List.mem_cons.mp hcm with hcm | hcm
    · subst hcm
      intro heq
      injection heq with h1 h2 h3
      subst h1
      subst h2
      exact hnm h
    · cases hcm

/-- One student step never writes to a pair that is already maintainer,
and preserves that maintainership. -/
theorem procStudent_keepM {oc : Remote} {dry : Bool} {slug : String} {st : GState}
    {u2 s u : String} (h : team_membership st s u = some .maintainer) :
    (∀ c ∈ (procStudent oc dry slug st u2).2.1, ∀ r2, c ≠ .putMembership s u r2) ∧
    team_membership (procStudent oc dry slug st u2).1 s u = some .maintainer := by
  refine ⟨?_, (procStudent_mono oc dry slug st u2).2.1 s u h⟩
  rcases procStudent_shape oc dry slug st u2 with ⟨_, hc⟩ | ⟨hnm, _, hc⟩
  · rw [hc]
    intro c hcm
    cases hcm
  · rw [hc]
    intro c hcm r2
    rcases List.mem_cons.mp hcm with hcm | hcm
    · subst hcm
      intro heq
      injection heq with h1 h2 h3
      subst h1
      subst h2
      rw [h] at hnm
      cases hnm
    · cases hcm

theorem foldProc_keepM (f : GState → String → GState × List TCall × List TEvent)
    {s u : String}
    (hf : ∀ st u2, team_membership st s u = some .maintainer →
      (∀ c ∈ (f st u2).2.1, ∀ r2, c ≠ .putMembership s u r2) ∧
      team_membership (f st u2).1 s u = some .maintainer) :
    ∀ (us : List String) (st : GState), team_membership st s u = some .maintainer →
      (∀ c ∈ (foldProc f st us).2.1, ∀ r2, c ≠ .putMembership s u r2) ∧
      team_membership (foldProc f st us).1 s u = some .maintainer := by
  intro us
  induction us with
  | nil =>
    intro st h
    exact ⟨fun c hc => absurd hc (List.not_mem_nil c), h⟩
  | cons u2 us ih =>
    intro st h
    have h1 := hf st u2 h
    have h2 := ih (f st u2).1 h1.2
    constructor
    · show ∀ c ∈ (f st u2).2.1 ++ (foldProc f (f st u2).1 us).2.1, ∀ r2, c ≠ .putMembership s u r2
      intro c hc r2
      rcases List.mem_append.mp hc with hc | hc
      · exact h1.1 c hc r2
      · exact h2.1 c hc r2
    · show team_membership (foldProc f (f st u2).1 us).1 s u = some .maintainer
      exact h2.2

theorem procGroup_keepM (oc : Remote) (dry : Bool) (instr : List String) {st : GState}
    (g : String) (ms : List String) {s u : String}
    (h : team_membership st s u = some .maintainer) :
    (∀ c ∈ (procGroup oc dry instr st g ms).calls, ∀ r2, c ≠ .putMembership s u r2) ∧
    team_membership (procGroup oc dry instr st g ms).state s u = some .maintainer := by
  have hIS : ∀ st2 : GState, team_membership st2 s u = some .maintainer →
      (∀ c ∈ (foldProc (procInstr oc dry (slugify g)) st2 instr).2.1 ++
          (foldProc (procStudent oc dry (slugify g))
            (foldProc (procInstr oc dry (slugify g)) st2 instr).1 ms).2.1,
        ∀ r2, c ≠ .putMembership s u r2) ∧
      team_membership (foldProc (procStudent oc dry (slugify g))
        (foldProc (procInstr oc dry (slugify g)) st2 instr).1 ms).1 s u =
        some .maintainer := by
    intro st2 h2
    have hA := foldProc_keepM (procInstr oc dry (slugify g))
      (fun st3 u3 h3 => procInstr_keepM h3) instr st2 h2
    have hB := foldProc_keepM (procStudent oc dry (slugify g))
      (fun st3 u3 h3 => procStudent_keepM h3) ms _ hA.2
    refine ⟨fun c hc r2 => ?_, hB.2⟩
    rcases List.mem_append.mp hc with hc | hc
    · exact hA.1 c hc r2
    · exact hB.1 c hc r2
  by_cases hex : team_exists st (slugify g) = true
  · rw [procGroup_eq_exists oc dry instr st g ms hex]
    exact hIS st h
  · have hex2 : team_exists st (slugify g) = false := by
      cases h2 : team_exists st (slugify g)
      · rfl
      · exact absurd h2 hex
    cases dry with
    | true =>
      rw [procGroup_eq_dry oc instr st g ms hex2]
      exact hIS st h
    | false =>
      by_cases hok : oc.createTeamOk g = true
      · rw [procGroup_eq_create oc instr st g ms hex2 hok]
        have h2 : team_membership (create_team st g) s u = some .maintainer :=
          (gmono_create st g).2.1 s u h
        have hrest := hIS (create_team st g) h2
        refine ⟨fun c hc r2 => ?_, hrest.2⟩
        rcases List.mem_cons.mp hc with hc | hc
        · subst hc
          intro heq
          cases heq
        · exact hrest.1 c hc r2
      · have hok2 : oc.createTeamOk g = false := by
          cases h2 : oc.createTeamOk g
          · rfl
          · exact absurd h2 hok
        rw [procGroup_eq_fail oc instr st g ms hex2 hok2]
        refine ⟨fun c hc r2 => ?_, h⟩
        rcases List.mem_cons.mp hc with hc | hc
        · subst hc
          intro heq
          cases heq
        · cases hc

/-- C6: for every person whose current team-membership role is already
maintainer, the run never issues any membership write for that person
on that team — no demotion and no duplicate maintainer write, in both
the instructor pass and the student pass, under any oracle and in
either mode — and the person is still maintainer afterwards. -/
theorem C6_maintainer_never_written :
    ∀ (oc : Remote) (dry : Bool) (instr : List String) (gst : GState)
      (groups : List (String × List String)) (s u : String),
      team_membership gst s u = some .maintainer →
      (∀ c ∈ (teamRun oc dry instr gst groups).calls, ∀ r2, c ≠ .putMembership s u r2) ∧
      team_membership (teamRun oc dry instr gst groups).state s u = some .maintainer := by
  intro oc dry instr gst groups s u
  induction groups generalizing gst with
  | nil =>
    intro h
    exact ⟨fun c hc => absurd hc (List.not_mem_nil c), h⟩
  | cons gp rest ih =>
    obtain ⟨gn, ms⟩ := gp
    intro h
    have h1 := procGroup_keepM oc dry instr gn ms h
    simp only [teamRun]
    cases hfa : (procGroup oc dry instr gst gn ms).fatal with
    | some f =>
      exact ⟨h1.1, h1.2⟩
    | none =>
      have h2 := ih ((procGroup oc dry instr gst gn ms).state) h1.2
      refine ⟨fun c hc r2 => ?_, h2.2⟩
      rcases List.mem_append.mp hc with hc | hc
      · exact h1.1 c hc r2
      · exact h2.1 c hc r2

/-- Witness for `C6_maintainer_never_written`: a run over a team whose
instructor is already a maintainer leaves the role in place. -/
theorem C6_maintainer_never_written_witness :
    team_membership
      (teamRun .allOk false ["mia"] [⟨"a", [("mia", .maintainer)]⟩]
        [("A", ["mia", "zed"])]).state "a" "mia" = some .maintainer :=
  (C6_maintainer_never_written .allOk false ["mia"] [⟨"a", [("mia", .maintainer)]⟩]
    [("A", ["mia", "zed"])] "a" "mia" rfl).2

/-! ## Claim C1: idempotence of the second run (team side) -/

/-- The desired state of one group is satisfied: the team exists, every
instructor is a maintainer, every member is present. -/
def GroupSat (st : GState) (instr : List String) (g : String) (ms : List String) : Prop :=
  team_exists st (slugify g) = true ∧
  (∀ u ∈ instr, team_membership st (slugify g) u = some .maintainer) ∧
  (∀ m ∈ ms, ∃ r, team_membership st (slugify g) m = some r)

theorem gmono_groupSat {st st2 : GState} {instr : List String} {g : String}
    {ms : List String} (hm : gmono st st2) (hs : GroupSat st instr g ms) :
    GroupSat st2 instr g ms :=
  ⟨hm.1 _ hs.1, fun u hu => hm.2.1 _ _ (hs.2.1 u hu),
   fun m hmem => by
     obtain ⟨r, hr⟩ := hs.2.2 m hmem
     exact hm.2.2 _ _ r hr⟩

/-- After a live all-success instructor step the instructor is a
maintainer. -/
theorem procInstr_post {slug : String} {st : GState} (u : String)
    (hex : team_exists st slug = true) :
    team_membership (procInstr .allOk false slug st u).1 slug u = some .maintainer := by
  unfold procInstr
  cases hr : team_membership st slug u with
  | some r =>
    cases r with
    | maintainer => exact hr
    | member =>
      show team_membership
        (if Remote.allOk.putOk slug u then add_to_team st slug u .maintainer else st) slug u =
        some Role.maintainer
      rw [if_pos (show Remote.allOk.putOk slug u = true from rfl)]
      exact team_membership_add_self u .maintainer hex
  | none =>
    show team_membership
      (if Remote.allOk.putOk slug u then add_to_team st slug u .maintainer else st) slug u =
      some Role.maintainer
    rw [if_pos (show Remote.allOk.putOk slug u = true from rfl)]
    exact team_membership_add_self u .maintainer hex

/-- After a live all-success student step the student is present. -/
theorem procStudent_post {slug : String} {st : GState} (u : String)
    (hex : team_exists st slug = true) :
    ∃ r, team_membership (procStudent .allOk false slug st u).1 slug u = some r := by
  unfold procStudent
  cases hr : team_membership st slug u with
  | some r => exact ⟨r, hr⟩
  | none =>
    refine ⟨.member, ?_⟩
    show team_membership
      (if Remote.allOk.putOk slug u then add_to_team st slug u .member else st) slug u =
      some Role.member
    rw [if_pos (show Remote.allOk.putOk slug u = true from rfl)]
    exact team_membership_add_self u .member hex

/-- After the live all-success instructor pass every instructor is a
maintainer. -/
theorem foldInstr_post {slug : String} :
    ∀ (instr : List String) (st : GState), team_exists st slug = true →
      team_exists (foldProc (procInstr .allOk false slug) st instr).1 slug = true ∧
      ∀ u ∈ instr,
        team_membership (foldProc (procInstr .allOk false slug) st instr).1 slug u =
          some .maintainer := by
  intro instr
  induction instr with
  | nil =>
    intro st hex
    exact ⟨hex, fun u hu => absurd hu (List.not_mem_nil u)⟩
  | cons u us ih =>
    intro st hex
    have hstep := procInstr_post u hex
    have hex1 : team_exists (procInstr .allOk false slug st u).1 slug = true :=
      (procInstr_mono .allOk false slug st u).1 slug hex
    obtain ⟨hex2, hrest⟩ := ih (procInstr .allOk false slug st u).1 hex1
    refine ⟨hex2, fun v hv => ?_⟩
    rcases List.mem_cons.mp hv with hv | hv
    · subst hv
      exact (foldProc_mono (procInstr_mono .allOk false slug) us _).2.1 slug v hstep
    · exact hrest v hv

/-- After the live all-success student pass every member is present. -/
theorem foldStudent_post {slug : String} :
    ∀ (ms : List String) (st : GState), team_exists st slug = true →
      team_exists (foldProc (procStudent .allOk false slug) st ms).1 slug = true ∧
      ∀ m ∈ ms, ∃ r,
        team_membership (foldProc (procStudent .allOk false slug) st ms).1 slug m =
          some r := by
  intro ms
  induction ms with
  | nil =>
    intro st hex
    exact ⟨hex, fun m hm => absurd hm (List.not_mem_nil m)⟩
  | cons u us ih =>
    intro st hex
    obtain ⟨r0, hstep⟩ := procStudent_post u hex
    have hex1 : team_exists (procStudent .allOk false slug st u).1 slug = true :=
      (procStudent_mono .allOk false slug st u).1 slug hex
    obtain ⟨hex2, hrest⟩ := ih (procStudent .allOk false slug st u).1 hex1
    refine ⟨hex2, fun v hv => ?_⟩
    rcases List.mem_cons.mp hv with hv | hv
    · subst hv
      exact (foldProc_mono (procStudent_mono .allOk false slug) us _).2.2 slug v r0 hstep
    · exact hrest v hv

/-- A live all-success group step is never fatal and satisfies the
group on exit. -/
theorem procGroup_post (instr : List String) (st : GState) (g : String) (ms : List String) :
    (procGroup .allOk false instr st g ms).fatal = none ∧
    GroupSat (procGroup .allOk false instr st g ms).state instr g ms := by
  have hbody : ∀ st0 : GState, team_exists st0 (slugify g) = true →
      team_exists (foldProc (procStudent .allOk false (slugify g))
        (foldProc (procInstr .allOk false (slugify g)) st0 instr).1 ms).1 (slugify g) = true ∧
      (∀ u ∈ instr, team_membership (foldProc (procStudent .allOk false (slugify g))
        (foldProc (procInstr .allOk false (slugify g)) st0 instr).1 ms).1 (slugify g) u =
        some .maintainer) ∧
      ∀ m ∈ ms, ∃ r, team_membership (foldProc (procStudent .allOk false (slugify g))
        (foldProc (procInstr .allOk false (slugify g)) st0 instr).1 ms).1 (slugify g) m =
        some r := by
    intro st0 hex0
    obtain ⟨hexA, hmaint⟩ := foldInstr_post instr st0 hex0
    obtain ⟨hexB, hmem⟩ := foldStudent_post ms _ hexA
    refine ⟨hexB, fun u hu => ?_, hmem⟩
    exact (foldProc_mono (procStudent_mono .allOk false (slugify g)) ms _).2.1
      (slugify g) u (hmaint u hu)
  by_cases hex : team_exists st (slugify g) = true
  · rw [procGroup_eq_exists .allOk false instr st g ms hex]
    exact ⟨rfl, hbody st hex⟩
  · have hex2 : team_exists st (slugify g) = false := by
      cases h2 : team_exists st (slugify g)
      · rfl
      · exact absurd h2 hex
    rw [procGroup_eq_create .allOk instr st g ms hex2 rfl]
    have hex0 : team_exists (create_team st g) (slugify g) = true := by
      rw [team_exists_create, hex2]
      simp
    exact ⟨rfl, hbody (create_team st g) hex0⟩

/-- The live all-success team run is never fatal and satisfies every
group on exit. -/
theorem teamRun_post (instr : List String) :
    ∀ (groups : List (String × List String)) (st : GState),
      (teamRun .allOk false instr st groups).fatal = none ∧
      ∀ gp ∈ groups,
        GroupSat (teamRun .allOk false instr st groups).state instr gp.1 gp.2 := by
  intro groups
  induction groups with
  | nil =>
    intro st
    exact ⟨rfl, fun gp hgp => absurd hgp (List.not_mem_nil gp)⟩
  | cons gp rest ih =>
    obtain ⟨gn, ms⟩ := gp
    intro st
    have hpost := procGroup_post instr st gn ms
    simp only [teamRun]
    rw [hpost.1]
    obtain ⟨hfat, hsat⟩ := ih (procGroup .allOk false instr st gn ms).state
    refine ⟨hfat, fun gp2 hgp2 => ?_⟩
    rcases List.mem_cons.mp hgp2 with hgp2 | hgp2
    · subst hgp2
      exact gmono_groupSat (teamRun_mono .allOk false instr rest _) hpost.2
    · exact hsat gp2 hgp2

/-- A queried maintainer makes the instructor step a pure skip. -/
theorem procInstr_skip {oc : Remote} {dry : Bool} {slug : String} {st : GState} {u : String}
    (h : team_membership st slug u = some .maintainer) :
    procInstr oc dry slug st u = (st, [], [.instrAlreadyMaint slug u]) := by
  unfold procInstr
  rw [h]

/-- A present member makes the student step a pure skip. -/
theorem procStudent_skip {oc : Remote} {dry : Bool} {slug : String} {st : GState}
    {u : String} {r : Role} (h : team_membership st slug u = some r) :
    procStudent oc dry slug st u = (st, [], [.studentAlready slug u r]) := by
  unfold procStudent
  rw [h]

theorem foldProc_cons (f : GState → String → GState × List TCall × List TEvent)
    (st : GState) (u : String) (us : List String) :
    foldProc f st (u :: us) =
      ((foldProc f (f st u).1 us).1,
       (f st u).2.1 ++ (foldProc f (f st u).1 us).2.1,
       (f st u).2.2 ++ (foldProc f (f st u).1 us).2.2) := rfl

theorem foldInstr_skip {oc : Remote} {dry : Bool} {slug : String} :
    ∀ (instr : List String) (st : GState),
      (∀ u ∈ instr, team_membership st slug u = some .maintainer) →
      (foldProc (procInstr oc dry slug) st instr).1 = st ∧
      (foldProc (procInstr oc dry slug) st instr).2.1 = [] ∧
      ∀ e ∈ (foldProc (procInstr oc dry slug) st instr).2.2, e.isSkip = true := by
  intro instr
  induction instr with
  | nil =>
    intro st _
    exact ⟨rfl, rfl, fun e he => absurd he (List.not_mem_nil e)⟩
  | cons u us ih =>
    intro st h
    have ha : procInstr oc dry slug st u = (st, [], [.instrAlreadyMaint slug u]) :=
      procInstr_skip (h u (List.mem_cons_self _ _))
    obtain ⟨hst, hc, he⟩ := ih st (fun v hv => h v (List.mem_cons_of_mem _ hv))
    rw [foldProc_cons, ha]
    dsimp only
    refine ⟨hst, by rw [hc]; rfl, fun e hem => ?_⟩
    rcases List.mem_cons.mp hem with hem | hem
    · subst hem
      rfl
    · exact he e hem


theorem foldStudent_skip {oc : Remote} {dry : Bool} {slug : String} :
    ∀ (ms : List String) (st : GState),
      (∀ m ∈ ms, ∃ r, team_membership st slug m = some r) →
      (foldProc (procStudent oc dry slug) st ms).1 = st ∧
      (foldProc (procStudent oc dry slug) st ms).2.1 = [] ∧
      ∀ e ∈ (foldProc (procStudent oc dry slug) st ms).2.2, e.isSkip = true := by
  intro ms
  induction ms with
  | nil =>
    intro st _
    exact ⟨rfl, rfl, fun e he => absurd he (List.not_mem_nil e)⟩
  | cons u us ih =>
    intro st h
    obtain ⟨r0, hr0⟩ := h u (List.mem_cons_self _ _)
    have ha : procStudent oc dry slug st u = (st, [], [.studentAlready slug u r0]) :=
      procStudent_skip hr0
    obtain ⟨hst, hc, he⟩ := ih st (fun v hv => h v (List.mem_cons_of_mem _ hv))
    rw [foldProc_cons, ha]
    dsimp only
    refine ⟨hst, by rw [hc]; rfl, fun e hem => ?_⟩
    rcases List.mem_cons.mp hem with hem | hem
    · subst hem
      rfl
    · exact he e hem

/-- A satisfied group makes the whole group step a pure skip. -/
theorem procGroup_skip {oc : Remote} {dry : Bool} {instr : List String} {st : GState}
    {g : String} {ms : List String} (hsat : GroupSat st instr g ms) :
    (procGroup oc dry instr st g ms).fatal = none ∧
    (procGroup oc dry instr st g ms).state = st ∧
    (procGroup oc dry instr st g ms).calls = [] ∧
    ∀ e ∈ (procGroup oc dry instr st g ms).events, e.isSkip = true := by
  obtain ⟨hex, hinstr, hms⟩ := hsat
  obtain ⟨hstA, hcA, heA⟩ := @foldInstr_skip oc dry (slugify g) instr st hinstr
  rw [procGroup_eq_exists oc dry instr st g ms hex]
  obtain ⟨hstB, hcB, heB⟩ := @foldStudent_skip oc dry (slugify g) ms
    (foldProc (procInstr oc dry (slugify g)) st instr).1
    (by rw [hstA]; exact hms)
  refine ⟨rfl, by rw [hstB, hstA], by rw [hcA, hcB]; rfl, fun e hem => ?_⟩
  rcases List.mem_cons.mp hem with hem | hem
  · subst hem
    rfl
  · rcases List.mem_append.mp hem with hem | hem
    · exact heA e hem
    · exact heB e hem

/-- A run over groups that are all satisfied is a pure skip. -/
theorem teamRun_skip (oc : Remote) (dry : Bool) (instr : List String) :
    ∀ (groups : List (String × List String)) (st : GState),
      (∀ gp ∈ groups, GroupSat st instr gp.1 gp.2) →
      (teamRun oc dry instr st groups).fatal = none ∧
      (teamRun oc dry instr st groups).state = st ∧
      (teamRun oc dry instr st groups).calls = [] ∧
      ∀ e ∈ (teamRun oc dry instr st groups).events, e.isSkip = true := by
  intro groups
  induction groups with
  | nil =>
    intro st _
    exact ⟨rfl, rfl, rfl, fun e he => absurd he (List.not_mem_nil e)⟩
  | cons gp rest ih =>
    obtain ⟨gn, ms⟩ := gp
    intro st h
    obtain ⟨hf1, hst1, hc1, he1⟩ := @procGroup_skip oc dry instr st gn ms
      (h ⟨gn, ms⟩ (List.mem_cons_self _ _))
    obtain ⟨hf2, hst2, hc2, he2⟩ := ih st (fun gp2 hgp2 => h gp2 (List.mem_cons_of_mem _ hgp2))
    simp only [teamRun]
    rw [hf1]
    have hstrw : (procGroup oc dry instr st gn ms).state = st := hst1
    rw [hstrw]
    refine ⟨hf2, hst2, by rw [hc1, hc2]; rfl, fun e hem => ?_⟩
    rcases List.mem_append.mp hem with hem | hem
    · exact he1 e hem
    · exact he2 e hem

/-! ## Claim C1: second-run behaviour of both reconciliation loops -/

/-- The skip condition of the invitation cascade (lines 78-79) as one
boolean: org member (for a non-email identifier) or pending invite. -/
def satB (st : OrgState) (u : String) : Bool :=
  (!(u.data.contains '@') && is_member st u) || has_pending st u

/-- What an invitation run may do to the organization state: the member
list and the user directory are read-only, invitations only accrue. -/
def omono (st st2 : OrgState) : Prop :=
  st2.members = st.members ∧ st2.users = st.users ∧
  ∃ t, st2.invites = st.invites ++ t

theorem omono_refl (st : OrgState) : omono st st :=
  ⟨rfl, rfl, [], (List.append_nil _).symm⟩

theorem omono_trans {a b c : OrgState} (h1 : omono a b) (h2 : omono b c) :
    omono a c := by
  obtain ⟨t1, ht1⟩ := h1.2.2
  obtain ⟨t2, ht2⟩ := h2.2.2
  exact ⟨h2.1.trans h1.1, h2.2.1.trans h1.2.1, t1 ++ t2,
    by rw [ht2, ht1, List.append_assoc]⟩

theorem wf_omono {st st2 : OrgState} (h : omono st st2) (hw : st.wf) : st2.wf := by
  unfold OrgState.wf
  rw [h.2.1]
  exact hw

theorem satB_mono {st st2 : OrgState} (h : omono st st2) {u : String}
    (hs : satB st u = true) : satB st2 u = true := by
  obtain ⟨hm, _, t, ht⟩ := h
  unfold satB is_member has_pending at hs ⊢
  rw [hm, ht, List.any_append]
  rw [Bool.or_eq_true] at hs
  rcases hs with h1 | h1
  · rw [Bool.or_eq_true]
    exact Or.inl h1
  · rw [Bool.or_eq_true, Bool.or_eq_true]
    exact Or.inr (Or.inl h1)

theorem resolve_uid_omono {st st2 : OrgState} (h : omono st st2) (u : String) :
    resolve_uid st2 u = resolve_uid st u := by
  unfold resolve_uid
  rw [h.2.1]

/-- In a directory with unique ids, looking the found user's id back up
returns the login that was searched. -/
theorem find_uid_of_find_login :
    ∀ (l : List DirEntry), (l.map (fun e => e.uid)).Nodup →
      ∀ (u : String) (e : DirEntry),
        l.find? (fun e2 => e2.login == u) = some e →
        (l.find? (fun e2 => e2.uid == e.uid)).map (fun e2 => e2.login) = some u := by
  intro l
  induction l with
  | nil =>
    intro _ u e h
    cases h
  | cons a l ih =>
    intro hnd u e h
    rw [List.map_cons, List.nodup_cons] at hnd
    cases hpa : (a.login == u) with
    | true =>
      rw [@List.find?_cons_of_pos _ (fun e2 => e2.login == u) a l hpa] at h
      cases h
      rw [@List.find?_cons_of_pos _ (fun e2 => e2.uid == a.uid) a l (by simp)]
      simp only [Option.map_some']
      exact congrArg some (eq_of_beq hpa)
    | false =>
      rw [@List.find?_cons_of_neg _ (fun e2 => e2.login == u) a l (by simp [hpa])] at h
      have hmem := List.mem_of_find?_eq_some h
      have hne : (a.uid == e.uid) = false := by
        apply beq_eq_false_iff_ne.mpr
        intro hequid
        exact hnd.1 (hequid ▸ (List.mem_map.mpr ⟨e, hmem, rfl⟩))
      rw [@List.find?_cons_of_neg _ (fun e2 => e2.uid == e.uid) a l (by simp [hne])]
      exact ih hnd.2 u e h

/-- With unique user ids, the login recorded on an invitation created
from a resolved id is the identifier that was resolved. -/
theorem loginOf_resolve {st : OrgState} (hwf : st.wf) {u : String} {uid : Nat}
    (h : resolve_uid st u = some uid) : loginOf st uid = some u := by
  unfold resolve_uid at h
  cases hf : st.users.find? (fun e => e.login == u) with
  | none =>
    rw [hf] at h
    cases h
  | some e =>
    rw [hf] at h
    simp only [Option.map_some'] at h
    cases h
    unfold loginOf
    exact find_uid_of_find_login st.users hwf u e hf

/-- A successful invitation leaves a pending invitation matching the
invited identifier by login. -/
theorem has_pending_create {st : OrgState} (hwf : st.wf) {u : String} {uid : Nat}
    (h : resolve_uid st u = some uid) :
    has_pending (create_invitation st uid) u = true := by
  have hl := loginOf_resolve hwf h
  show (st.invites ++ [(⟨loginOf st uid, none⟩ : Invitation)]).any
      (fun i => i.login.getD "" == u || i.email.getD "" == u) = true
  rw [hl, List.any_append, Bool.or_eq_true]
  exact Or.inr (by simp)

theorem omono_create_invitation (st : OrgState) (uid : Nat) :
    omono st (create_invitation st uid) :=
  ⟨rfl, rfl, [⟨loginOf st uid, none⟩], rfl⟩

theorem inviteRun_cons (oc : Remote) (dry : Bool) (st : OrgState) (u : String)
    (us : List String) :
    inviteRun oc dry st (u :: us) =
      ⟨(u, (inviteStep oc st dry u).1) ::
         (inviteRun oc dry (inviteStep oc st dry u).2.1 us).outcomes,
       (inviteRun oc dry (inviteStep oc st dry u).2.1 us).state,
       (inviteStep oc st dry u).2.2 ++
         (inviteRun oc dry (inviteStep oc st dry u).2.1 us).calls⟩ := rfl

theorem inviteOne_member {api : Api} {u : String}
    (h : (!(u.data.contains '@') && api.isMember u) = true) (dry : Bool) :
    inviteOne api dry u = .skippedMember := by
  unfold inviteOne
  rw [if_pos h]

theorem inviteOne_pending {api : Api} {u : String}
    (h1 : (!(u.data.contains '@') && api.isMember u) = false)
    (h2 : api.pending u = true) (dry : Bool) :
    inviteOne api dry u = .skippedPending := by
  have h1n : ¬ (!(u.data.contains '@') && api.isMember u) = true := by
    rw [h1]
    exact Bool.false_ne_true
  unfold inviteOne
  rw [if_neg h1n, if_pos h2]

theorem inviteOne_live {api : Api} {u : String}
    (h1 : (!(u.data.contains '@') && api.isMember u) = false)
    (h2 : api.pending u = false) :
    inviteOne api false u =
      match api.resolveUid u with
      | none => IOutcome.cannotResolve
      | some uid =>
        if api.createOk uid then IOutcome.invited uid else IOutcome.inviteFailed uid := by
  have h1n : ¬ (!(u.data.contains '@') && api.isMember u) = true := by
    rw [h1]
    exact Bool.false_ne_true
  have h2n : ¬ api.pending u = true := by
    rw [h2]
    exact Bool.false_ne_true
  unfold inviteOne
  rw [if_neg h1n, if_neg h2n, if_neg Bool.false_ne_true]

theorem inviteStep_omono (oc : Remote) (st : OrgState) (dry : Bool) (u : String) :
    omono st (inviteStep oc st dry u).2.1 := by
  unfold inviteStep
  cases h : inviteOne (apiOf oc st) dry u with
  | invited uid => exact omono_create_invitation st uid
  | inviteFailed uid => exact omono_refl st
  | skippedMember => exact omono_refl st
  | skippedPending => exact omono_refl st
  | wouldInvite => exact omono_refl st
  | cannotResolve => exact omono_refl st

/-- One live all-success iteration ends with its identifier either
satisfying a skip condition or unresolvable (and then reported so). -/
theorem inviteStep_cases (st : OrgState) (hwf : st.wf) (u : String) :
    omono st (inviteStep .allOk st false u).2.1 ∧
    (satB (inviteStep .allOk st false u).2.1 u = true ∨
      (resolve_uid st u = none ∧
        (inviteStep .allOk st false u).1 = IOutcome.cannotResolve)) := by
  by_cases hc1 : (!(u.data.contains '@') && (apiOf .allOk st).isMember u) = true
  · have hstep : inviteStep .allOk st false u = (.skippedMember, st, []) := by
      unfold inviteStep
      rw [inviteOne_member hc1 false]
    rw [hstep]
    refine ⟨omono_refl st, Or.inl ?_⟩
    unfold satB
    rw [Bool.or_eq_true]
    exact Or.inl hc1
  · have hc1f : (!(u.data.contains '@') && (apiOf .allOk st).isMember u) = false := by
      cases h2 : (!(u.data.contains '@') && (apiOf .allOk st).isMember u)
      · rfl
      · exact absurd h2 hc1
    by_cases hp : (apiOf .allOk st).pending u = true
    · have hstep : inviteStep .allOk st false u = (.skippedPending, st, []) := by
        unfold inviteStep
        rw [inviteOne_pending hc1f hp false]
      rw [hstep]
      refine ⟨omono_refl st, Or.inl ?_⟩
      unfold satB
      rw [Bool.or_eq_true]
      exact Or.inr hp
    · have hpf : (apiOf .allOk st).pending u = false := by
        cases h2 : (apiOf .allOk st).pending u
        · rfl
        · exact absurd h2 hp
      have ho := inviteOne_live hc1f hpf
      cases hr : resolve_uid st u with
      | none =>
        have ho2 : inviteOne (apiOf .allOk st) false u = .cannotResolve := by
          rw [ho]
          show (match resolve_uid st u with
                | none => IOutcome.cannotResolve
                | some uid =>
                  if Remote.allOk.inviteOk uid then IOutcome.invited uid
                  else IOutcome.inviteFailed uid) = IOutcome.cannotResolve
          rw [hr]
        have hstep : inviteStep .allOk st false u = (.cannotResolve, st, []) := by
          unfold inviteStep
          rw [ho2]
        rw [hstep]
        exact ⟨omono_refl st, Or.inr ⟨rfl, rfl⟩⟩
      | some uid =>
        have ho2 : inviteOne (apiOf .allOk st) false u = .invited uid := by
          rw [ho]
          show (match resolve_uid st u with
                | none => IOutcome.cannotResolve
                | some uid =>
                  if Remote.allOk.inviteOk uid then IOutcome.invited uid
                  else IOutcome.inviteFailed uid) = IOutcome.invited uid
          rw [hr]
          rfl
        have hstep : inviteStep .allOk st false u =
            (.invited uid, create_invitation st uid, [.createInvitation uid]) := by
          unfold inviteStep
          rw [ho2]
        rw [hstep]
        refine ⟨omono_create_invitation st uid, Or.inl ?_⟩
        unfold satB
        rw [Bool.or_eq_true]
        exact Or.inr (has_pending_create hwf hr)

theorem inviteRun_omono (oc : Remote) (dry : Bool) :
    ∀ (us : List String) (st : OrgState), omono st (inviteRun oc dry st us).state := by
  intro us
  induction us with
  | nil =>
    intro st
    exact omono_refl st
  | cons u us ih =>
    intro st
    rw [inviteRun_cons]
    exact omono_trans (inviteStep_omono oc st dry u) (ih _)

/-- After a live all-success run, every processed identifier either
satisfies a skip condition of the final state or is unresolvable there
(and the run reported it as such). -/
theorem inviteRun_sat :
    ∀ (us : List String) (st : OrgState), st.wf → ∀ u ∈ us,
      satB (inviteRun .allOk false st us).state u = true ∨
      (resolve_uid (inviteRun .allOk false st us).state u = none ∧
        (u, IOutcome.cannotResolve) ∈ (inviteRun .allOk false st us).outcomes) := by
  intro us
  induction us with
  | nil =>
    intro st _ u hu
    exact absurd hu (List.not_mem_nil u)
  | cons v vs ih =>
    intro st hwf u hu
    obtain ⟨hom, hcase⟩ := inviteStep_cases st hwf v
    rw [inviteRun_cons]
    rcases List.mem_cons.mp hu with rfl | hu2
    · rcases hcase with hsat | ⟨hres, hout⟩
      · exact Or.inl (satB_mono (inviteRun_omono .allOk false vs _) hsat)
      · refine Or.inr ⟨?_, ?_⟩
        · rw [resolve_uid_omono
            (omono_trans (inviteStep_omono .allOk st false u) (inviteRun_omono .allOk false vs _)) u]
          exact hres
        · show (u, IOutcome.cannotResolve) ∈
            (u, (inviteStep .allOk st false u).1) ::
              (inviteRun .allOk false (inviteStep .allOk st false u).2.1 vs).outcomes
          rw [hout]
          exact List.mem_cons_self _ _
    · have hrec := ih (inviteStep .allOk st false v).2.1
        (wf_omono (inviteStep_omono .allOk st false v) hwf) u hu2
      rcases hrec with hsat | ⟨hres, hmem⟩
      · exact Or.inl hsat
      · exact Or.inr ⟨hres, List.mem_cons_of_mem _ hmem⟩

/-- A live iteration over an identifier that is skip-satisfied or
unresolvable issues no call and keeps the state; its outcome is a skip,
or the cannot-resolve failure when no skip condition held. -/
theorem inviteStep_skip (oc : Remote) (st : OrgState) (u : String)
    (h : satB st u = true ∨ resolve_uid st u = none) :
    ((inviteStep oc st false u).1.isSkip = true ∨
      (satB st u = false ∧ (inviteStep oc st false u).1 = IOutcome.cannotResolve)) ∧
    (inviteStep oc st false u).2.1 = st ∧
    (inviteStep oc st false u).2.2 = [] := by
  by_cases hc1 : (!(u.data.contains '@') && (apiOf oc st).isMember u) = true
  · have hstep : inviteStep oc st false u = (.skippedMember, st, []) := by
      unfold inviteStep
      rw [inviteOne_member hc1 false]
    rw [hstep]
    exact ⟨Or.inl rfl, rfl, rfl⟩
  · have hc1f : (!(u.data.contains '@') && (apiOf oc st).isMember u) = false := by
      cases h2 : (!(u.data.contains '@') && (apiOf oc st).isMember u)
      · rfl
      · exact absurd h2 hc1
    by_cases hp : (apiOf oc st).pending u = true
    · have hstep : inviteStep oc st false u = (.skippedPending, st, []) := by
        unfold inviteStep
        rw [inviteOne_pending hc1f hp false]
      rw [hstep]
      exact ⟨Or.inl rfl, rfl, rfl⟩
    · have hpf : (apiOf oc st).pending u = false := by
        cases h2 : (apiOf oc st).pending u
        · rfl
        · exact absurd h2 hp
      have hsf : satB st u = false := by
        unfold satB
        rw [show (!(u.data.contains '@') && is_member st u) = false from hc1f,
          show has_pending st u = false from hpf]
        rfl
      have hres : resolve_uid st u = none := by
        rcases h with hsat | hres
        · rw [hsf] at hsat
          cases hsat
        · exact hres
      have ho2 : inviteOne (apiOf oc st) false u = .cannotResolve := by
        rw [inviteOne_live hc1f hpf]
        show (match resolve_uid st u with
              | none => IOutcome.cannotResolve
              | some uid =>
                if oc.inviteOk uid then IOutcome.invited uid
                else IOutcome.inviteFailed uid) = IOutcome.cannotResolve
        rw [hres]
      have hstep : inviteStep oc st false u = (.cannotResolve, st, []) := by
        unfold inviteStep
        rw [ho2]
      rw [hstep]
      exact ⟨Or.inr ⟨hsf, rfl⟩, rfl, rfl⟩

/-- A live run over identifiers that are each skip-satisfied or
unresolvable issues no call and keeps the state; every outcome is a
skip or (for an identifier with no skip condition) cannot-resolve. -/
theorem inviteRun_skip (oc : Remote) :
    ∀ (us : List String) (st : OrgState),
      (∀ u ∈ us, satB st u = true ∨ resolve_uid st u = none) →
      (inviteRun oc false st us).state = st ∧
      (inviteRun oc false st us).calls = [] ∧
      ∀ p ∈ (inviteRun oc false st us).outcomes,
        p.1 ∈ us ∧
          (p.2.isSkip = true ∨
            (satB st p.1 = false ∧ p.2 = IOutcome.cannotResolve)) := by
  intro us
  induction us with
  | nil =>
    intro st _
    exact ⟨rfl, rfl, fun p hp => absurd hp (List.not_mem_nil p)⟩
  | cons v vs ih =>
    intro st h
    obtain ⟨hK, hst, hcalls⟩ := inviteStep_skip oc st v (h v (List.mem_cons_self _ _))
    rw [inviteRun_cons, hst, hcalls]
    obtain ⟨hst2, hc2, hout2⟩ := ih st (fun u hu => h u (List.mem_cons_of_mem _ hu))
    refine ⟨hst2, by rw [hc2]; rfl, fun p hp => ?_⟩
    have hp2 : p ∈ (v, (inviteStep oc st false v).1) ::
        (inviteRun oc false st vs).outcomes := hp
    rcases List.mem_cons.mp hp2 with rfl | hp3
    · refine ⟨List.mem_cons_self _ _, ?_⟩
      rcases hK with hskip | ⟨hsf, hcr⟩
      · exact Or.inl hskip
      · exact Or.inr ⟨hsf, hcr⟩
    · obtain ⟨hmem, hK2⟩ := hout2 p hp3
      exact ⟨List.mem_cons_of_mem _ hmem, hK2⟩

/-- C1 is too strong as stated: over the empty organization, a live run
over the single unresolvable identifier "ghost" performs no mutating
call and changes nothing, yet the second run — with no external change
in between — classifies that identifier as a cannot-resolve failure
again, not as a skip. -/
theorem C1_counterexample :
    (inviteRun .allOk false ⟨[], [], []⟩ ["ghost"]).state = ⟨[], [], []⟩ ∧
    (inviteRun .allOk false ⟨[], [], []⟩ ["ghost"]).calls = [] ∧
    ((inviteRun .allOk false
        (inviteRun .allOk false ⟨[], [], []⟩ ["ghost"]).state
        ["ghost"]).outcomes.all (fun p => p.2.isSkip)) = false :=
  ⟨rfl, rfl, rfl⟩

/-- C1, amended. Against an all-success remote in live mode over a user
directory with unique ids: the second invitation run issues no
createInvitation call and leaves the organization state unchanged, and
every second-run outcome is a skip except cannot-resolve failures,
which recur exactly for identifiers the first run already reported as
cannot-resolve; when the first run reported none, the second run is
all-skip. The team workflow is idempotent as claimed: neither run is
fatal, and the second run issues no createTeam or setTeamMembership
call, leaves the team state unchanged and classifies every team and
every membership target as already satisfied. -/
theorem C1_idempotent_second_run (us : List String) (st : OrgState) (hwf : st.wf)
    (instr : List String) (groups : List (String × List String)) (gst : GState) :
    ((inviteRun .allOk false (inviteRun .allOk false st us).state us).calls = [] ∧
     (inviteRun .allOk false (inviteRun .allOk false st us).state us).state =
       (inviteRun .allOk false st us).state ∧
     (∀ p ∈ (inviteRun .allOk false (inviteRun .allOk false st us).state us).outcomes,
       p.2.isSkip = true ∨
         (p.2 = IOutcome.cannotResolve ∧
           (p.1, IOutcome.cannotResolve) ∈ (inviteRun .allOk false st us).outcomes)) ∧
     ((∀ p ∈ (inviteRun .allOk false st us).outcomes, p.2 ≠ IOutcome.cannotResolve) →
       ∀ p ∈ (inviteRun .allOk false (inviteRun .allOk false st us).state us).outcomes,
         p.2.isSkip = true)) ∧
    ((teamRun .allOk false instr gst groups).fatal = none ∧
     (teamRun .allOk false instr
       (teamRun .allOk false instr gst groups).state groups).fatal = none ∧
     (teamRun .allOk false instr
       (teamRun .allOk false instr gst groups).state groups).calls = [] ∧
     (teamRun .allOk false instr
       (teamRun .allOk false instr gst groups).state groups).state =
       (teamRun .allOk false instr gst groups).state ∧
     ∀ e ∈ (teamRun .allOk false instr
         (teamRun .allOk false instr gst groups).state groups).events,
       e.isSkip = true) := by
  have hsat1 := inviteRun_sat us st hwf
  have hpre : ∀ u ∈ us,
      satB (inviteRun .allOk false st us).state u = true ∨
      resolve_uid (inviteRun .allOk false st us).state u = none := by
    intro u hu
    rcases hsat1 u hu with h | ⟨h, _⟩
    · exact Or.inl h
    · exact Or.inr h
  obtain ⟨hst2, hc2, hout2⟩ :=
    inviteRun_skip .allOk us (inviteRun .allOk false st us).state hpre
  refine ⟨⟨hc2, hst2, ?_, ?_⟩, ?_⟩
  · intro p hp
    obtain ⟨hmem, hK⟩ := hout2 p hp
    rcases hK with hskip | ⟨hsf, hcr⟩
    · exact Or.inl hskip
    · refine Or.inr ⟨hcr, ?_⟩
      rcases hsat1 p.1 hmem with h | ⟨_, h⟩
      · rw [h] at hsf
        cases hsf
      · exact h
  · intro hnone p hp
    obtain ⟨hmem, hK⟩ := hout2 p hp
    rcases hK with hskip | ⟨hsf, _⟩
    · exact hskip
    · rcases hsat1 p.1 hmem with h | ⟨_, h⟩
      · rw [h] at hsf
        cases hsf
      · exact absurd rfl (hnone _ h)
  · obtain ⟨hf1, hsatT⟩ := teamRun_post instr groups gst
    obtain ⟨hf2, hstT, hcT, heT⟩ := teamRun_skip .allOk false instr groups
      (teamRun .allOk false instr gst groups).state hsatT
    exact ⟨hf1, hf2, hcT, hstT, heT⟩

/-- Witness for `C1_idempotent_second_run`: a directory resolving
"alice" with a unique id, one roster entry, one group and one
instructor. -/
theorem C1_idempotent_second_run_witness :
    OrgState.wf ⟨[], [], [⟨"alice", 7⟩]⟩ ∧
    (((inviteRun .allOk false (inviteRun .allOk false (⟨[], [], [⟨"alice", 7⟩]⟩ : OrgState) ["alice"]).state ["alice"]).calls = [] ∧
     (inviteRun .allOk false (inviteRun .allOk false (⟨[], [], [⟨"alice", 7⟩]⟩ : OrgState) ["alice"]).state ["alice"]).state =
       (inviteRun .allOk false (⟨[], [], [⟨"alice", 7⟩]⟩ : OrgState) ["alice"]).state ∧
     (∀ p ∈ (inviteRun .allOk false (inviteRun .allOk false (⟨[], [], [⟨"alice", 7⟩]⟩ : OrgState) ["alice"]).state ["alice"]).outcomes,
       p.2.isSkip = true ∨
         (p.2 = IOutcome.cannotResolve ∧
           (p.1, IOutcome.cannotResolve) ∈ (inviteRun .allOk false (⟨[], [], [⟨"alice", 7⟩]⟩ : OrgState) ["alice"]).outcomes)) ∧
     ((∀ p ∈ (inviteRun .allOk false (⟨[], [], [⟨"alice", 7⟩]⟩ : OrgState) ["alice"]).outcomes, p.2 ≠ IOutcome.cannotResolve) →
       ∀ p ∈ (inviteRun .allOk false (inviteRun .allOk false (⟨[], [], [⟨"alice", 7⟩]⟩ : OrgState) ["alice"]).state ["alice"]).outcomes,
         p.2.isSkip = true)) ∧
    ((teamRun .allOk false ["tina"] ([] : GState) [("A", ["alice"])]).fatal = none ∧
     (teamRun .allOk false ["tina"]
       (teamRun .allOk false ["tina"] ([] : GState) [("A", ["alice"])]).state [("A", ["alice"])]).fatal = none ∧
     (teamRun .allOk false ["tina"]
       (teamRun .allOk false ["tina"] ([] : GState) [("A", ["alice"])]).state [("A", ["alice"])]).calls = [] ∧
     (teamRun .allOk false ["tina"]
       (teamRun .allOk false ["tina"] ([] : GState) [("A", ["alice"])]).state [("A", ["alice"])]).state =
       (teamRun .allOk false ["tina"] ([] : GState) [("A", ["alice"])]).state ∧
     ∀ e ∈ (teamRun .allOk false ["tina"]
         (teamRun .allOk false ["tina"] ([] : GState) [("A", ["alice"])]).state [("A", ["alice"])]).events,
       e.isSkip = true)) :=
  ⟨by decide,
    C1_idempotent_second_run ["alice"] ⟨[], [], [⟨"alice", 7⟩]⟩ (by decide)
      ["tina"] [("A", ["alice"])] []⟩

end OrgAuto
